import Mathlib

/-!
# Editing core of kb-text-editor

A shallow embedding of the row store, tokenizer, coordinate mapper,
character editing operations, viewport and row renderer of
`CTE WITH NCURSES/utils.cpp` (class `editorConfig`), followed by theorems
about them.

Conventions of the embedding.

* `std::string` is `List Char`, `std::vector<std::string>` is `List (List Char)`.
* Row indices (`at`) are `Int`, as in the source, because the guards
  `at < 0 || at >= numrows` are part of the behaviour.
* Character and rendered columns are `Nat`: every property below is about
  columns `>= 0`.  Where the source passes an `int` field of the state as a
  column (`scroll`, `drawRows`), `cx_to_rx_int` and `getRow_int` say what the
  call does for a negative value.  Sizes and counters are unbounded (rows are
  assumed to be shorter than `INT_MAX`, so no `int` arithmetic of the source
  wraps).
* An access outside a vector or string (`operator[]`, `insert`, `erase`,
  `substr` past the end) has no defined result in C++; the embedding returns
  `none` there, so a theorem `f x = some y` also says that every access made
  on the way was inside its container.
-/

namespace KbEditor

/-- A token of a row: one `std::string`. -/
abbrev Token := List Char

/-- A row of the document: `std::vector<std::string>`. -/
abbrev Row := List Token

/-- The constant `TAB_SIZE` of `utils.hpp`. -/
def TAB_SIZE : Nat := 4

/-- The data members of `editorConfig` that the editing core reads or writes
(file name, status message, terminal settings and the output buffer are left
out: no operation below touches them). -/
structure editorConfig where
  cx : Int
  cy : Int
  screenrows : Int
  screencols : Int
  numrows : Int
  row : List Row
  rowoff : Int
  coloff : Int
  rx : Int
  dirty : Int
deriving DecidableEq

/-! ## Container primitives -/

/-- The access `row[at]`: defined only for `0 <= at < row.size()`. -/
def rowAt (E : editorConfig) (at_ : Int) : Option Row :=
  if 0 ≤ at_ then E.row[at_.toNat]? else none

/-- The call `v.insert(v.begin() + k, x)`: defined for `k <= v.size()`. -/
def vec_insert {α : Type} (v : List α) (k : Nat) (x : α) : Option (List α) :=
  if k ≤ v.length then some (v.take k ++ x :: v.drop k) else none

/-- The call `v.erase(v.begin() + k)`: defined for `k < v.size()`. -/
def vec_erase {α : Type} (v : List α) (k : Nat) : Option (List α) :=
  if k < v.length then some (v.take k ++ v.drop (k + 1)) else none

/-- The call `s.substr(pos)`: defined for `pos <= s.size()`. -/
def substr (s : Token) (pos : Nat) : Option Token :=
  if pos ≤ s.length then some (s.drop pos) else none

/-- The call `s.erase(pos)` (erase to the end): defined for `pos <= s.size()`. -/
def str_erase_from (s : Token) (pos : Nat) : Option Token :=
  if pos ≤ s.length then some (s.take pos) else none

/-! ## Tokenizer -/

/-- The loop of `editorConfig::process`: `ret` and `curr` are the local
variables, the first argument is what is left of `s`. -/
def process_loop : List Char → Row → Token → Row
  | [], ret, curr => if curr ≠ [] then ret ++ [curr] else ret
  | c :: cs, ret, curr =>
    if c = '\t' ∨ c = ' ' then
      process_loop cs ((if curr ≠ [] then ret ++ [curr] else ret) ++ [[c]]) []
    else
      process_loop cs ret (curr ++ [c])

/-- The function `editorConfig::process`. -/
def process (s : List Char) : Row :=
  process_loop s [] []


/-! ## Coordinate mapper -/

/-- The loop of `editorConfig::cx_to_rx` over the tokens of `row[at]`, with
the local variables `curr_rx` and `curr_len`.  In the last branch the source
computes `curr_rx + cx - curr_len`; `curr_len <= cx` holds whenever that
branch is reached, so the truncated subtraction loses nothing. -/
def cx_to_rx_loop (cx : Nat) : Row → Nat → Nat → Nat
  | [], curr_rx, _ => curr_rx
  | t :: ts, curr_rx, curr_len =>
    if curr_len < cx ∧ t = ['\t'] then
      cx_to_rx_loop cx ts (curr_rx + (TAB_SIZE - curr_rx % TAB_SIZE)) (curr_len + 1)
    else if curr_len + t.length < cx then
      cx_to_rx_loop cx ts (curr_rx + t.length) (curr_len + t.length)
    else
      curr_rx + cx - curr_len

/-- The function `editorConfig::cx_to_rx`. -/
def cx_to_rx (E : editorConfig) (at_ : Int) (cx : Nat) : Option Nat :=
  (rowAt E at_).map (fun r => cx_to_rx_loop cx r 0 0)

/-- The loop of `editorConfig::rx_to_cx` over the tokens of `row[at]`, with
the local variables `curr_rx` and `curr_len`; `curr_rx <= rx` holds whenever
the last branch is reached. -/
def rx_to_cx_loop (rx : Nat) : Row → Nat → Nat → Nat
  | [], _, curr_len => curr_len
  | t :: ts, curr_rx, curr_len =>
    if t = ['\t'] then
      if curr_rx + TAB_SIZE - curr_rx % TAB_SIZE > rx then curr_len
      else rx_to_cx_loop rx ts (curr_rx + (TAB_SIZE - curr_rx % TAB_SIZE)) (curr_len + 1)
    else if curr_rx + t.length < rx then
      rx_to_cx_loop rx ts (curr_rx + t.length) (curr_len + t.length)
    else
      curr_len + rx - curr_rx

/-- The function `editorConfig::rx_to_cx`. -/
def rx_to_cx (E : editorConfig) (at_ : Int) (rx : Nat) : Option Nat :=
  (rowAt E at_).map (fun r => rx_to_cx_loop rx r 0 0)

/-- The loop of `editorConfig::get_idx`: `i` is the loop counter, `curr_len`
the local variable, the list is `row[at]` from index `i` on.  The result is
the pair `(idx[0], idx[1])`. -/
def get_idx_loop (cx : Nat) : Row → Nat → Nat → Nat × Nat
  | [], i, _ => (i, 0)
  | t :: ts, i, curr_len =>
    if t.length + curr_len ≤ cx then get_idx_loop cx ts (i + 1) (curr_len + t.length)
    else (i, cx - curr_len)

/-- The body of `editorConfig::get_idx` on the row `row[at]`. -/
def get_idx_row (r : Row) (cx : Nat) : Nat × Nat :=
  get_idx_loop cx r 0 0

/-- The function `editorConfig::get_idx`. -/
def get_idx (E : editorConfig) (at_ : Int) (cx : Nat) : Option (Nat × Nat) :=
  (rowAt E at_).map (fun r => get_idx_row r cx)

/-! ## Row store -/

/-- The body of `editorConfig::getRow` after the index guard, on `row[at]`:
the part of the straddled token from the offset on, then every later token
(the `while` loop copies `row[at][idx[0]]` up to the end of the row). -/
def getRow_row (r : Row) (Idx : Nat) : Option (List Token) :=
  let idx := get_idx_row r Idx
  if idx.1 = r.length then some []
  else do
    let t ← r[idx.1]?
    let first ← substr t idx.2
    some (first :: r.drop (idx.1 + 1))

/-- The function `editorConfig::getRow`. -/
def getRow (E : editorConfig) (at_ : Int) (Idx : Nat) : Option (List Token) :=
  if at_ < 0 ∨ at_ ≥ E.numrows then some []
  else do
    let r ← rowAt E at_
    getRow_row r Idx

/-! ## Character editing -/

/-- The body of `editorConfig::insertChar` after the index guard, on
`row[at]`.  The parameter `c` is the character that the source stores with
`std::string(1, c)`. -/
def insertChar_row (r : Row) (cx : Nat) (c : Char) : Option Row :=
  let idx := get_idx_row r cx
  if c = ' ' ∨ c = '\t' then
    if idx.2 = 0 then
      vec_insert r idx.1 [c]
    else do
      let t ← r[idx.1]?
      let tmp ← substr t idx.2
      let t1 ← str_erase_from t idx.2
      let r1 := r.set idx.1 t1
      let r2 ← vec_insert r1 (idx.1 + 1) tmp
      vec_insert r2 (idx.1 + 1) [c]
  else
    if idx.1 = r.length then
      some (r ++ [[c]])
    else do
      let t ← r[idx.1]?
      if t = [' '] ∨ t = ['\t'] then
        vec_insert r idx.1 [c]
      else do
        let t1 ← vec_insert t idx.2 c
        some (r.set idx.1 t1)

/-- The function `editorConfig::insertChar`. -/
def insertChar (E : editorConfig) (at_ : Int) (cx : Nat) (c : Char) :
    Option editorConfig :=
  if at_ < 0 ∨ at_ ≥ E.numrows then some E
  else do
    let r ← rowAt E at_
    let r1 ← insertChar_row r cx c
    some { E with row := E.row.set at_.toNat r1 }

/-- The body of `editorConfig::deleteChar` after the index guard, on
`row[at]`. -/
def deleteChar_row (r : Row) (cx : Nat) : Option Row :=
  let idx := get_idx_row r cx
  if idx.1 = r.length then some r
  else do
    let t ← r[idx.1]?
    if idx.2 = t.length then
      some r
    else if t = [' '] ∨ t = ['\t'] then do
      let r1 ← vec_erase r idx.1
      if idx.1 = 0 ∨ idx.1 = r1.length then
        some r1
      else do
        let p ← r1[idx.1 - 1]?
        if p ≠ [' '] ∧ p ≠ ['\t'] then do
          let q ← r1[idx.1]?
          if q ≠ [' '] ∧ q ≠ ['\t'] then
            vec_erase (r1.set (idx.1 - 1) (p ++ q)) idx.1
          else
            some r1
        else do
          let q ← r1[idx.1]?
          vec_erase (r1.set (idx.1 - 1) (p ++ q)) idx.1
    else do
      let t1 ← vec_erase t idx.2
      let r1 := r.set idx.1 t1
      if t1 = [] then vec_erase r1 idx.1 else some r1

/-- The function `editorConfig::deleteChar`. -/
def deleteChar (E : editorConfig) (at_ : Int) (cx : Nat) : Option editorConfig :=
  if at_ < 0 ∨ at_ ≥ E.numrows then some E
  else do
    let r ← rowAt E at_
    let r1 ← deleteChar_row r cx
    some { E with row := E.row.set at_.toNat r1 }

/-! ## Row insertion, deletion and joining -/

/-- The function `editorConfig::insertRow`. -/
def insertRow (E : editorConfig) (at_ : Int) (s : List Char) : Option editorConfig :=
  if at_ < 0 ∨ at_ > E.numrows then some E
  else do
    let rows ← vec_insert E.row at_.toNat (process s)
    some { E with row := rows, numrows := E.numrows + 1, dirty := E.dirty + 1 }

/-- The function `editorConfig::deleteRow`. -/
def deleteRow (E : editorConfig) (at_ : Int) : Option editorConfig :=
  if at_ < 0 ∨ at_ ≥ E.numrows then some E
  else do
    let rows ← vec_erase E.row at_.toNat
    some { E with row := rows, numrows := E.numrows - 1, dirty := E.dirty + 1 }

/-- The loop of `editorConfig::appendRow` over the tokens that `getRow`
returned: each iteration is `row[at1].push_back(s)`. -/
def appendRow_loop (at1 : Int) : List Token → editorConfig → Option editorConfig
  | [], E => some E
  | s :: ss, E => do
    let r ← rowAt E at1
    appendRow_loop at1 ss { E with row := E.row.set at1.toNat (r ++ [s]) }

/-- The function `editorConfig::appendRow`.  The token list of `getRow` is a
temporary, computed once before the loop. -/
def appendRow (E : editorConfig) (at1 at2 : Int) (cx : Nat) : Option editorConfig :=
  if at1 < 0 ∨ at1 > E.numrows then some E
  else do
    let tail ← getRow E at2 cx
    appendRow_loop at1 tail E

/-! ## Viewport -/

/-- The call `cx_to_rx(at, cx)` with the `int` column of the cursor.  For
`cx >= 0` it is `cx_to_rx`.  For `cx < 0` the first test of the loop
(`curr_len < cx`, on `int`) always fails and the second one compares against
`cx` converted to `size_t`, above every row length, so every token adds its
size: the result is the length of the row's text. -/
def cx_to_rx_int (E : editorConfig) (at_ : Int) (cx : Int) : Option Int :=
  if 0 ≤ cx then (cx_to_rx E at_ cx.toNat).map Int.ofNat
  else (rowAt E at_).map (fun r => (r.flatten.length : Int))

/-- The function `editorConfig::scroll`. -/
def scroll (E : editorConfig) : Option editorConfig :=
  (if E.cy < E.numrows then cx_to_rx_int E E.cy E.cx else some 0).bind fun rx =>
    let rowoff1 := if E.cy < E.rowoff then E.cy else E.rowoff
    let rowoff2 := if E.cy ≥ rowoff1 + E.screenrows then E.cy - E.screenrows + 1 else rowoff1
    let coloff1 := if rx < E.coloff then rx else E.coloff
    let coloff2 := if rx ≥ coloff1 + E.screencols then rx - E.screencols + 1 else coloff1
    some { E with rx := rx, rowoff := rowoff2, coloff := coloff2 }

/-! ## Renderer -/

/-- The call `getRow(at, Idx)` with an `int` column.  For `Idx < 0` the test
of `get_idx` compares against `Idx` converted to `size_t`, so `get_idx`
walks to the end of the row and `getRow` returns no token. -/
def getRow_int (E : editorConfig) (at_ : Int) (Idx : Int) : Option (List Token) :=
  if 0 ≤ Idx then getRow E at_ Idx.toNat
  else if at_ < 0 ∨ at_ ≥ E.numrows then some []
  else (rowAt E at_).map (fun _ => [])

/-- The loop `while (render.size() % TAB_SIZE != 0) render += " "` of
`drawRows`; it runs fewer than `TAB_SIZE` times, which is the fuel given to
it. -/
def pad_loop : Nat → List Char → List Char
  | 0, render => render
  | fuel + 1, render =>
    if render.length % TAB_SIZE ≠ 0 then pad_loop fuel (render ++ [' ']) else render

/-- The loop of `drawRows` over the tokens of `getRow(filerow, coloff)` that
builds `render`: for a tab token one space and padding up to the next
multiple of `TAB_SIZE`; then, for every token, the token itself. -/
def render_loop : List Token → List Char → List Char
  | [], render => render
  | s :: ss, render =>
    if s = ['\t'] then render_loop ss (pad_loop TAB_SIZE (render ++ [' ']) ++ s)
    else render_loop ss (render ++ s)

/-- The function `iscntrl` of the C locale: codes 0 to 31 and 127. -/
def iscntrl (c : Char) : Bool :=
  c.toNat < 32 || c.toNat == 127

/-- The access `render[i]` of a `std::string`: the character at `i`, the
terminating null character at `i == size()`, nothing beyond. -/
def str_at (render : List Char) (i : Nat) : Option Char :=
  if i < render.length then render[i]?
  else if i = render.length then some (Char.ofNat 0)
  else none

/-- The loop `for (int i = 0; i < len; i++)` of `drawRows`: `n` iterations
are left, `i` is the loop counter, `out` is what has been appended to `s`. -/
def cntrl_loop (render : List Char) : Nat → Nat → List Char → Option (List Char)
  | 0, _, out => some out
  | n + 1, i, out => do
    let ch ← str_at render i
    if iscntrl ch then
      let c := if ch.toNat ≤ 26 then Char.ofNat ('@'.toNat + ch.toNat) else '?'
      cntrl_loop render n (i + 1) (out ++ ['\x1b', '[', '7', 'm'] ++ [c] ++ ['\x1b', '[', 'm'])
    else
      cntrl_loop render n (i + 1) out

/-- What one iteration of the outer loop of `drawRows` appends to `s` for a
row of the file (the `else` branch), before the line-clear sequence.
`render.substr(0, len)` takes the whole string when the `int` `len` is
negative (it converts to a huge `size_t`). -/
def drawRow (E : editorConfig) (filerow : Int) : Option (List Char) := do
  let toks ← getRow_int E filerow E.coloff
  let render := render_loop toks []
  let len : Int := min (max 0 ((render.length : Int) - E.coloff)) E.screencols
  let esc ← cntrl_loop render len.toNat 0 []
  some (esc ++ (if len < 0 then render else render.take len.toNat))

/-- The outer loop of `editorConfig::drawRows`: `n` iterations are left, `y`
is the loop counter, `s` the output string. -/
def drawRows_loop (E : editorConfig) : Nat → Int → List Char → Option (List Char)
  | 0, _, s => some s
  | n + 1, y, s => do
    let s1 ← if y + E.rowoff ≥ E.numrows then some s
      else (drawRow E (y + E.rowoff)).map (fun t => s ++ t)
    drawRows_loop E n (y + 1) (s1 ++ ['\x1b', '[', 'K', '\r', '\n'])

/-- The function `editorConfig::drawRows`. -/
def drawRows (E : editorConfig) (s : List Char) : Option (List Char) :=
  drawRows_loop E E.screenrows.toNat 0 s

/-! ## Reference definitions used to state the properties -/

/-- The text of a row: its tokens concatenated in order. -/
def rowText (r : Row) : List Char := r.flatten

/-- Tokenized form of a row, as the data model states it: the tokens are
exactly what the tokenizer produces for the row's text (no empty token, every
space or tab a singleton token, whitespace-free tokens maximal). -/
def tokenized (r : Row) : Prop := r = process (rowText r)

instance (r : Row) : Decidable (tokenized r) :=
  inferInstanceAs (Decidable (r = process (rowText r)))

/-- One step of the reference rendered width: a tab moves the counter `w` to
`w + (TAB_SIZE - w mod TAB_SIZE)`, every other character adds 1. -/
def stepWidth (w : Nat) (c : Char) : Nat :=
  if c = '\t' then w + (TAB_SIZE - w % TAB_SIZE) else w + 1

/-- Reference rendered width of a text, written from the specification: the
fold of `stepWidth` over its characters, starting from 0. -/
def refRenderedWidth (cs : List Char) : Nat :=
  cs.foldl stepWidth 0

/-- Number of leading characters of `cs` whose rendered end column, counted
from the rendered column `w`, is at most `rx`. -/
def colsWithin (rx : Nat) : List Char → Nat → Nat
  | [], _ => 0
  | c :: cs, w => if stepWidth w c ≤ rx then 1 + colsWithin rx cs (stepWidth w c) else 0

/-- A whitespace token: the single character space or tab. -/
def wsTok (t : Token) : Prop :=
  t = [' '] ∨ t = ['\t']

/-- No two tokens that are not whitespace tokens stand next to each other. -/
def noAdjacentWords : Row → Prop
  | t :: u :: rest => (wsTok t ∨ wsTok u) ∧ noAdjacentWords (u :: rest)
  | _ => True

/-- A well-formed token: not empty, and either a whitespace token or free of
spaces and tabs. -/
def tokOK (t : Token) : Prop :=
  t ≠ [] ∧ (wsTok t ∨ (' ' ∉ t ∧ '\t' ∉ t))

/-- Every tab of the row is a token of its own. -/
def tabsAlone (r : Row) : Prop :=
  ∀ t ∈ r, t = ['\t'] ∨ '\t' ∉ t

/-- A document holding the rows `rows`, cursor and viewport at the origin,
on a screen of 24 rows and 80 columns; `numrows` is the number of rows. -/
def docOf (rows : List Row) : editorConfig :=
  { cx := 0, cy := 0, screenrows := 24, screencols := 80, numrows := rows.length,
    row := rows, rowoff := 0, coloff := 0, rx := 0, dirty := 0 }

/-! ## Theorems -/

/-! ### List facts -/

theorem getElem?_mid {α : Type} (pre post : List α) (t : α) :
    (pre ++ t :: post)[pre.length]? = some t := by
  induction pre with
  | nil => simp
  | cons a l ih => simpa using ih

theorem take_succ_mid {α : Type} (pre post : List α) (t : α) :
    (pre ++ t :: post).take (pre.length + 1) = pre ++ [t] := by
  induction pre with
  | nil => simp
  | cons a l ih => simpa using ih

theorem take_len_add {α : Type} (a b : List α) (o : Nat) :
    (a ++ b).take (a.length + o) = a ++ b.take o := by
  induction a with
  | nil => simp
  | cons x l ih => simpa [Nat.succ_add] using ih

theorem drop_len_add {α : Type} (a b : List α) (o : Nat) :
    (a ++ b).drop (a.length + o) = b.drop o := by
  induction a with
  | nil => simp
  | cons x l ih => simp [Nat.succ_add, ih]

theorem set_mid {α : Type} (pre post : List α) (t x : α) :
    (pre ++ t :: post).set pre.length x = pre ++ x :: post := by
  simp

@[simp] theorem rowText_nil : rowText [] = [] := rfl

@[simp] theorem rowText_cons (t : Token) (r : Row) : rowText (t :: r) = t ++ rowText r := by
  simp [rowText]

@[simp] theorem rowText_append (a b : Row) : rowText (a ++ b) = rowText a ++ rowText b := by
  simp [rowText]

/-! ### Row access in a document -/

theorem rowAt_some (E : editorConfig) (hn : E.numrows ≤ E.row.length) (at_ : Int)
    (h0 : 0 ≤ at_) (h1 : at_ < E.numrows) : ∃ r, rowAt E at_ = some r := by
  have hlt : at_.toNat < E.row.length := by omega
  exact ⟨E.row[at_.toNat], by simp [rowAt, h0, hlt]⟩

theorem rowAt_set_self (E : editorConfig) (at_ : Int) (r r1 : Row)
    (hr : rowAt E at_ = some r) :
    rowAt { E with row := E.row.set at_.toNat r1 } at_ = some r1 := by
  unfold rowAt at hr ⊢
  by_cases h0 : 0 ≤ at_
  · simp only [h0, if_true] at hr ⊢
    have hlt : at_.toNat < E.row.length := by
      rcases Nat.lt_or_ge at_.toNat E.row.length with h | h
      · exact h
      · rw [List.getElem?_eq_none h] at hr; cases hr
    simp [hlt]
  · simp [h0] at hr

theorem rowAt_set_other (E : editorConfig) (at_ j : Int) (r1 : Row) (h0 : 0 ≤ at_)
    (hj : j ≠ at_) :
    rowAt { E with row := E.row.set at_.toNat r1 } j = rowAt E j := by
  unfold rowAt
  by_cases hj0 : 0 ≤ j
  · have hne : at_.toNat ≠ j.toNat := by omega
    simp [hj0, List.getElem?_set_ne hne]
  · simp [hj0]

/-! ### What `get_idx` returns -/

theorem get_idx_loop_ge (cx : Nat) (r : Row) (i curr_len : Nat)
    (h : curr_len + (rowText r).length ≤ cx) :
    get_idx_loop cx r i curr_len = (i + r.length, 0) := by
  induction r generalizing i curr_len with
  | nil => simp [get_idx_loop]
  | cons t ts ih =>
    simp only [rowText_cons, List.length_append] at h
    unfold get_idx_loop
    rw [if_pos (by omega), ih (i + 1) (curr_len + t.length) (by omega)]
    simp only [List.length_cons]
    congr 1
    omega

theorem get_idx_loop_lt (cx : Nat) (r : Row) (i curr_len : Nat)
    (h0 : curr_len ≤ cx) (h : cx < curr_len + (rowText r).length) :
    ∃ pre t post, r = pre ++ t :: post ∧
      get_idx_loop cx r i curr_len = (i + pre.length, cx - (curr_len + (rowText pre).length)) ∧
      curr_len + (rowText pre).length ≤ cx ∧
      cx < curr_len + (rowText pre).length + t.length := by
  induction r generalizing i curr_len with
  | nil => simp at h; omega
  | cons t ts ih =>
    simp only [rowText_cons, List.length_append] at h
    unfold get_idx_loop
    by_cases ht : t.length + curr_len ≤ cx
    · rw [if_pos ht]
      obtain ⟨pre, u, post, hr, hg, h1, h2⟩ :=
        ih (i + 1) (curr_len + t.length) (by omega) (by omega)
      refine ⟨t :: pre, u, post, by simp [hr], ?_, ?_, ?_⟩
      · rw [hg]
        simp only [rowText_cons, List.length_append, List.length_cons]
        congr 1 <;> omega
      · simp only [rowText_cons, List.length_append]; omega
      · simp only [rowText_cons, List.length_append]; omega
    · rw [if_neg ht]
      refine ⟨[], t, ts, by simp, by simp, by simpa using h0, by simp; omega⟩

theorem get_idx_row_ge (r : Row) (cx : Nat) (h : (rowText r).length ≤ cx) :
    get_idx_row r cx = (r.length, 0) := by
  have := get_idx_loop_ge cx r 0 0 (by omega)
  simpa [get_idx_row] using this

theorem get_idx_row_lt (r : Row) (cx : Nat) (h : cx < (rowText r).length) :
    ∃ pre t post, r = pre ++ t :: post ∧
      get_idx_row r cx = (pre.length, cx - (rowText pre).length) ∧
      (rowText pre).length ≤ cx ∧ cx < (rowText pre).length + t.length := by
  obtain ⟨pre, t, post, hr, hg, h1, h2⟩ := get_idx_loop_lt cx r 0 0 (by omega) (by omega)
  exact ⟨pre, t, post, hr, by simpa [get_idx_row] using hg, by omega, by omega⟩

/-! ### Tokenizer -/

theorem process_loop_join (s : List Char) (ret : Row) (curr : Token) :
    (process_loop s ret curr).flatten = ret.flatten ++ curr ++ s := by
  induction s generalizing ret curr with
  | nil =>
    unfold process_loop
    by_cases h : curr = [] <;> simp [h]
  | cons c cs ih =>
    unfold process_loop
    by_cases hc : c = '\t' ∨ c = ' '
    · by_cases h : curr = [] <;> simp [hc, h, ih]
    · simp [hc, ih]

theorem rowText_process (s : List Char) : rowText (process s) = s := by
  simp [rowText, process, process_loop_join]

/-- C1: tokenizer round-trip. For every string `s`, concatenating the tokens
returned by `process s` in order yields exactly `s`. -/
theorem process_join (s : List Char) : rowText (process s) = s := by
  simp [rowText, process, process_loop_join]

/-! ### Character insertion -/

theorem insertChar_row_text (r : Row) (cx : Nat) (c : Char)
    (h : cx ≤ (rowText r).length) :
    ∃ r1, insertChar_row r cx c = some r1 ∧
      rowText r1 = (rowText r).take cx ++ c :: (rowText r).drop cx := by
  rcases Nat.lt_or_ge cx (rowText r).length with hlt | hge
  · obtain ⟨pre, t, post, hr, hg, h1, h2⟩ := get_idx_row_lt r cx hlt
    subst hr
    obtain ⟨o, rfl⟩ : ∃ o, cx = (rowText pre).length + o := ⟨cx - (rowText pre).length, by omega⟩
    have ho : o < t.length := by omega
    simp only [Nat.add_sub_cancel_left] at hg
    have htxt : (rowText (pre ++ t :: post)).take ((rowText pre).length + o) ++
        c :: (rowText (pre ++ t :: post)).drop ((rowText pre).length + o)
        = rowText pre ++ (t.take o ++ c :: (t.drop o ++ rowText post)) := by
      simp only [rowText_append, rowText_cons, take_len_add, drop_len_add]
      rw [List.take_append_of_le_length (by omega), List.drop_append_of_le_length (by omega)]
      simp
    rw [htxt]
    unfold insertChar_row
    simp only [hg, getElem?_mid, set_mid]
    by_cases hc : c = ' ' ∨ c = '\t'
    · by_cases ho0 : o = 0
      · subst ho0
        simp [hc, vec_insert]
      · simp [hc, ho0, vec_insert, substr, str_erase_from, Nat.le_of_lt ho, take_succ_mid,
          drop_len_add]
    · have hne : pre.length ≠ (pre ++ t :: post).length := by simp
      by_cases ht : t = [' '] ∨ t = ['\t']
      · have ho0 : o = 0 := by rcases ht with rfl | rfl <;> simpa using ho
        subst ho0
        simp [hc, hne, ht, vec_insert]
      · simp [hc, hne, ht, vec_insert, Nat.le_of_lt ho]
  · have hcx : cx = (rowText r).length := by omega
    subst hcx
    unfold insertChar_row
    simp only [get_idx_row_ge r _ (Nat.le_refl _)]
    by_cases hc : c = ' ' ∨ c = '\t' <;> simp [hc, vec_insert]

/-! ### Character deletion -/

theorem erase_mid {α : Type} (pre post : List α) (t : α) :
    vec_erase (pre ++ t :: post) pre.length = some (pre ++ post) := by
  simp [vec_erase]

theorem deleteChar_row_past (r : Row) (cx : Nat) (h : (rowText r).length ≤ cx) :
    deleteChar_row r cx = some r := by
  unfold deleteChar_row
  simp [get_idx_row_ge r cx h]

theorem deleteChar_row_text (r : Row) (cx : Nat) (h : cx < (rowText r).length) :
    ∃ r1, deleteChar_row r cx = some r1 ∧
      rowText r1 = (rowText r).take cx ++ (rowText r).drop (cx + 1) := by
  obtain ⟨pre, t, post, hr, hg, h1, h2⟩ := get_idx_row_lt r cx h
  subst hr
  obtain ⟨o, rfl⟩ : ∃ o, cx = (rowText pre).length + o := ⟨cx - (rowText pre).length, by omega⟩
  have ho : o < t.length := by omega
  simp only [Nat.add_sub_cancel_left] at hg
  have htxt : (rowText (pre ++ t :: post)).take ((rowText pre).length + o) ++
      (rowText (pre ++ t :: post)).drop ((rowText pre).length + o + 1)
      = rowText pre ++ (t.take o ++ (t.drop (o + 1) ++ rowText post)) := by
    simp only [rowText_append, rowText_cons, take_len_add, Nat.add_assoc, drop_len_add]
    rw [List.take_append_of_le_length (by omega), List.drop_append_of_le_length (by omega)]
    simp
  rw [htxt]
  have hne : pre.length ≠ (pre ++ t :: post).length := by simp
  have hno : o ≠ t.length := by omega
  unfold deleteChar_row
  simp only [hg, getElem?_mid, set_mid, hne, if_false, Option.bind_eq_bind, Option.some_bind,
    hno, erase_mid]
  by_cases ht : t = [' '] ∨ t = ['\t']
  · have ho0 : o = 0 := by rcases ht with rfl | rfl <;> simpa using ho
    have ht1 : t.take o ++ (t.drop (o + 1) ++ rowText post) = rowText post := by
      subst ho0
      rcases ht with rfl | rfl <;> simp
    rw [ht1, if_pos ht]
    rcases List.eq_nil_or_concat pre with rfl | ⟨pre1, p, hpre⟩
    · simp
    · rw [List.concat_eq_append] at hpre
      subst hpre
      cases post with
      | nil => simp
      | cons q post1 =>
        have hlen : (pre1 ++ [p]).length - 1 = pre1.length := by simp
        have e1 : pre1 ++ [p] ++ q :: post1 = pre1 ++ p :: q :: post1 := by simp
        have e2 : pre1 ++ p :: q :: post1 = (pre1 ++ [p]) ++ q :: post1 := by simp
        have hp : (pre1 ++ [p] ++ q :: post1)[(pre1 ++ [p]).length - 1]? = some p := by
          rw [hlen, e1]; exact getElem?_mid pre1 (q :: post1) p
        have hq : (pre1 ++ [p] ++ q :: post1)[(pre1 ++ [p]).length]? = some q :=
          getElem?_mid (pre1 ++ [p]) post1 q
        have hset : (pre1 ++ [p] ++ q :: post1).set ((pre1 ++ [p]).length - 1) (p ++ q)
            = (pre1 ++ [p ++ q]) ++ q :: post1 := by
          rw [hlen, e1, set_mid]; simp
        have hlen2 : (pre1 ++ [p]).length = (pre1 ++ [p ++ q]).length := by simp
        have hmerge : vec_erase ((pre1 ++ [p] ++ q :: post1).set ((pre1 ++ [p]).length - 1)
            (p ++ q)) (pre1 ++ [p]).length = some (pre1 ++ [p ++ q] ++ post1) := by
          rw [hset, hlen2]; exact erase_mid _ _ _
        have hg2 : ¬ ((pre1 ++ [p]).length = 0 ∨
            (pre1 ++ [p]).length = (pre1 ++ [p] ++ q :: post1).length) := by simp
        simp only [hg2, if_false, hp, hq, hmerge, Option.bind_eq_bind, Option.some_bind]
        by_cases hpw : p ≠ [' '] ∧ p ≠ ['\t']
        · by_cases hqw : q ≠ [' '] ∧ q ≠ ['\t']
          · rw [if_pos hpw, if_pos hqw]; exact ⟨_, rfl, by simp⟩
          · rw [if_pos hpw, if_neg hqw]; exact ⟨_, rfl, by simp⟩
        · rw [if_neg hpw]; exact ⟨_, rfl, by simp⟩
  · rw [if_neg ht]
    have he : vec_erase t o = some (t.take o ++ t.drop (o + 1)) := by simp [vec_erase, ho]
    simp only [he, Option.some_bind]
    by_cases hemp : t.take o ++ t.drop (o + 1) = []
    · rw [if_pos hemp]
      refine ⟨_, rfl, ?_⟩
      have : t.take o ++ (t.drop (o + 1) ++ rowText post) = rowText post := by
        rw [← List.append_assoc, hemp]; rfl
      rw [this]; simp
    · rw [if_neg hemp]
      exact ⟨_, rfl, by simp⟩

/-- C2: `insertChar` inserts exactly one character at the column. For every
document whose `numrows` is its number of rows and every row index `at` in
`[0, numrows)`, the row `r` at `at` exists, and for every column
`cx <= length of r's text` and every character `c` the call
`insertChar(at, cx, c)` completes, the text of row `at` afterwards is the old
text with `c` inserted at position `cx`, every other row is unchanged, and
`numrows` and the number of rows are unchanged. -/
theorem insertChar_inserts (E : editorConfig) (hn : E.numrows = E.row.length)
    (at_ : Int) (h0 : 0 ≤ at_) (h1 : at_ < E.numrows) :
    ∃ r, rowAt E at_ = some r ∧
      ∀ (cx : Nat) (c : Char), cx ≤ (rowText r).length →
        ∃ E1 r1, insertChar E at_ cx c = some E1 ∧ rowAt E1 at_ = some r1 ∧
          rowText r1 = (rowText r).take cx ++ c :: (rowText r).drop cx ∧
          (∀ j : Int, j ≠ at_ → rowAt E1 j = rowAt E j) ∧
          E1.numrows = E.numrows ∧ E1.row.length = E.row.length := by
  obtain ⟨r, hr⟩ := rowAt_some E (le_of_eq hn) at_ h0 h1
  refine ⟨r, hr, ?_⟩
  intro cx c hcx
  obtain ⟨r1, hins, htxt⟩ := insertChar_row_text r cx c hcx
  refine ⟨{ E with row := E.row.set at_.toNat r1 }, r1, ?_, rowAt_set_self E at_ r r1 hr,
    htxt, fun j hj => rowAt_set_other E at_ j r1 h0 hj, rfl, by simp⟩
  have hg : ¬ (at_ < 0 ∨ at_ ≥ E.numrows) := by omega
  simp [insertChar, hg, hr, hins]

theorem insertChar_inserts_witness :
    (docOf [[['a', 'b'], [' '], ['c', 'd']]]).numrows
        = (docOf [[['a', 'b'], [' '], ['c', 'd']]]).row.length ∧
    (0 : Int) ≤ 0 ∧ (0 : Int) < (docOf [[['a', 'b'], [' '], ['c', 'd']]]).numrows ∧
    ∃ r, rowAt (docOf [[['a', 'b'], [' '], ['c', 'd']]]) 0 = some r ∧
      ∀ (cx : Nat) (c : Char), cx ≤ (rowText r).length →
        ∃ E1 r1, insertChar (docOf [[['a', 'b'], [' '], ['c', 'd']]]) 0 cx c = some E1 ∧
          rowAt E1 0 = some r1 ∧
          rowText r1 = (rowText r).take cx ++ c :: (rowText r).drop cx ∧
          (∀ j : Int, j ≠ 0 → rowAt E1 j = rowAt (docOf [[['a', 'b'], [' '], ['c', 'd']]]) j) ∧
          E1.numrows = (docOf [[['a', 'b'], [' '], ['c', 'd']]]).numrows ∧
          E1.row.length = (docOf [[['a', 'b'], [' '], ['c', 'd']]]).row.length :=
  ⟨by decide, by decide, by decide,
    insertChar_inserts (docOf [[['a', 'b'], [' '], ['c', 'd']]]) (by decide) 0 (by decide)
      (by decide)⟩

/-- C3: `deleteChar` removes exactly the character at the column. For every
document in which every index below `numrows` is a row (in particular when
`numrows` is the number of rows) and every row index `at` in `[0, numrows)`,
the row `r` at `at` exists, and for every column `cx >= 0` the call
`deleteChar(at, cx)` completes; if `cx` is less than the length of `r`'s text
the text of row `at` afterwards is the old text with the character at position
`cx` removed; if `cx` is at or past the end the row is left as it was (its
tokens unchanged, no merge); in both cases every other row, `numrows` and the
number of rows are unchanged. -/
theorem deleteChar_removes (E : editorConfig) (hn : E.numrows ≤ E.row.length)
    (at_ : Int) (h0 : 0 ≤ at_) (h1 : at_ < E.numrows) :
    ∃ r, rowAt E at_ = some r ∧
      ∀ cx : Nat,
        ∃ E1 r1, deleteChar E at_ cx = some E1 ∧ rowAt E1 at_ = some r1 ∧
          (cx < (rowText r).length →
            rowText r1 = (rowText r).take cx ++ (rowText r).drop (cx + 1)) ∧
          ((rowText r).length ≤ cx → r1 = r) ∧
          (∀ j : Int, j ≠ at_ → rowAt E1 j = rowAt E j) ∧
          E1.numrows = E.numrows ∧ E1.row.length = E.row.length := by
  obtain ⟨r, hr⟩ := rowAt_some E hn at_ h0 h1
  refine ⟨r, hr, ?_⟩
  intro cx
  have hg : ¬ (at_ < 0 ∨ at_ ≥ E.numrows) := by omega
  rcases Nat.lt_or_ge cx (rowText r).length with hlt | hge
  · obtain ⟨r1, hdel, htxt⟩ := deleteChar_row_text r cx hlt
    refine ⟨{ E with row := E.row.set at_.toNat r1 }, r1, ?_, rowAt_set_self E at_ r r1 hr,
      fun _ => htxt, fun h => absurd hlt (by omega),
      fun j hj => rowAt_set_other E at_ j r1 h0 hj, rfl, by simp⟩
    simp [deleteChar, hg, hr, hdel]
  · have hdel := deleteChar_row_past r cx hge
    refine ⟨{ E with row := E.row.set at_.toNat r }, r, ?_, rowAt_set_self E at_ r r hr,
      fun h => absurd h (by omega), fun _ => rfl,
      fun j hj => rowAt_set_other E at_ j r h0 hj, rfl, by simp⟩
    simp [deleteChar, hg, hr, hdel]

theorem deleteChar_removes_witness :
    (docOf [[['a', 'b'], [' '], ['c', 'd']], []]).numrows
        ≤ (docOf [[['a', 'b'], [' '], ['c', 'd']], []]).row.length ∧
    (0 : Int) ≤ 0 ∧ (0 : Int) < (docOf [[['a', 'b'], [' '], ['c', 'd']], []]).numrows ∧
    ∃ r, rowAt (docOf [[['a', 'b'], [' '], ['c', 'd']], []]) 0 = some r ∧
      ∀ cx : Nat,
        ∃ E1 r1, deleteChar (docOf [[['a', 'b'], [' '], ['c', 'd']], []]) 0 cx = some E1 ∧
          rowAt E1 0 = some r1 ∧
          (cx < (rowText r).length →
            rowText r1 = (rowText r).take cx ++ (rowText r).drop (cx + 1)) ∧
          ((rowText r).length ≤ cx → r1 = r) ∧
          (∀ j : Int, j ≠ 0 →
            rowAt E1 j = rowAt (docOf [[['a', 'b'], [' '], ['c', 'd']], []]) j) ∧
          E1.numrows = (docOf [[['a', 'b'], [' '], ['c', 'd']], []]).numrows ∧
          E1.row.length = (docOf [[['a', 'b'], [' '], ['c', 'd']], []]).row.length :=
  ⟨by decide, by decide, by decide,
    deleteChar_removes (docOf [[['a', 'b'], [' '], ['c', 'd']], []]) (by decide) 0
      (by decide) (by decide)⟩

/-! ### Coordinate mapper -/

theorem stepWidth_gt (w : Nat) (c : Char) : w < stepWidth w c := by
  unfold stepWidth TAB_SIZE
  split <;> omega

theorem foldl_stepWidth_ge (l : List Char) (w : Nat) : w ≤ l.foldl stepWidth w := by
  induction l generalizing w with
  | nil => simp
  | cons c cs ih =>
    simp only [List.foldl_cons]
    exact Nat.le_trans (Nat.le_of_lt (stepWidth_gt w c)) (ih _)

theorem foldl_stepWidth_notab (l : List Char) (w : Nat) (h : '\t' ∉ l) :
    l.foldl stepWidth w = w + l.length := by
  induction l generalizing w with
  | nil => simp
  | cons c cs ih =>
    have hc : c ≠ '\t' := fun e => h (by simp [e])
    have hcs : '\t' ∉ cs := fun e => h (by simp [e])
    simp only [List.foldl_cons, List.length_cons]
    rw [ih _ hcs]
    simp only [stepWidth, hc, if_false]
    omega

theorem process_loop_tabsAlone (s : List Char) (ret : Row) (curr : Token)
    (hret : tabsAlone ret) (hcurr : '\t' ∉ curr) : tabsAlone (process_loop s ret curr) := by
  induction s generalizing ret curr with
  | nil =>
    unfold process_loop
    by_cases h : curr = []
    · simpa [h] using hret
    · simp only [h, ne_eq, not_false_eq_true, if_true]
      intro t ht
      rcases List.mem_append.1 ht with h1 | h1
      · exact hret t h1
      · right; simp at h1; rw [h1]; exact hcurr
  | cons c cs ih =>
    unfold process_loop
    by_cases hc : c = '\t' ∨ c = ' '
    · rw [if_pos hc]
      apply ih
      · intro t ht
        rcases List.mem_append.1 ht with h1 | h1
        · by_cases h : curr = []
          · simp only [h, ne_eq, not_true_eq_false, if_false] at h1
            exact hret t h1
          · simp only [h, ne_eq, not_false_eq_true, if_true] at h1
            rcases List.mem_append.1 h1 with h2 | h2
            · exact hret t h2
            · right; simp at h2; rw [h2]; exact hcurr
        · simp at h1
          rcases hc with rfl | rfl
          · left; exact h1
          · right; rw [h1]; decide
      · simp
    · rw [if_neg hc]
      apply ih _ _ hret
      intro hmem
      rcases List.mem_append.1 hmem with h1 | h1
      · exact hcurr h1
      · simp at h1; exact hc (Or.inl h1.symm)

theorem process_tabsAlone (s : List Char) : tabsAlone (process s) :=
  process_loop_tabsAlone s [] [] (by intro t ht; simp at ht) (by simp)

theorem cx_to_rx_loop_eq (cx : Nat) (r : Row) (curr_rx curr_len : Nat)
    (hr : tabsAlone r) (h : curr_len ≤ cx) :
    cx_to_rx_loop cx r curr_rx curr_len
      = ((rowText r).take (cx - curr_len)).foldl stepWidth curr_rx := by
  induction r generalizing curr_rx curr_len with
  | nil => simp [cx_to_rx_loop]
  | cons t ts ih =>
    have hts : tabsAlone ts := fun u hu => hr u (by simp [hu])
    unfold cx_to_rx_loop
    by_cases h1 : curr_len < cx ∧ t = ['\t']
    · rw [if_pos h1, ih _ _ hts (by omega)]
      obtain ⟨hlt, rfl⟩ := h1
      obtain ⟨k, hk⟩ : ∃ k, cx - curr_len = k + 1 := ⟨cx - curr_len - 1, by omega⟩
      have hk2 : cx - (curr_len + 1) = k := by omega
      rw [hk, hk2]
      simp [stepWidth]
    · rw [if_neg h1]
      have hnt : '\t' ∉ t ∨ (t = ['\t'] ∧ cx = curr_len) := by
        rcases hr t (by simp) with ht | ht
        · right
          refine ⟨ht, ?_⟩
          by_cases hlt : curr_len < cx
          · exact absurd ⟨hlt, ht⟩ h1
          · omega
        · left; exact ht
      by_cases h2 : curr_len + t.length < cx
      · rw [if_pos h2, ih _ _ hts (by omega)]
        have ht : '\t' ∉ t := by
          rcases hnt with ht | ⟨_, he⟩
          · exact ht
          · omega
        have e : cx - curr_len = t.length + (cx - (curr_len + t.length)) := by omega
        rw [e, rowText_cons, take_len_add, List.foldl_append, foldl_stepWidth_notab t _ ht]
      · rw [if_neg h2]
        rcases hnt with ht | ⟨_, he⟩
        · rw [rowText_cons, List.take_append_of_le_length (by omega),
            foldl_stepWidth_notab _ _ (fun hm => ht (List.mem_of_mem_take hm))]
          simp only [List.length_take]
          omega
        · subst he
          simp

theorem colsWithin_nil (rx w : Nat) : colsWithin rx [] w = 0 := rfl

theorem colsWithin_cons (rx : Nat) (c : Char) (cs : List Char) (w : Nat) :
    colsWithin rx (c :: cs) w
      = if stepWidth w c ≤ rx then 1 + colsWithin rx cs (stepWidth w c) else 0 := rfl

theorem colsWithin_of_le (rx : Nat) (l : List Char) (w : Nat) (h : rx ≤ w) :
    colsWithin rx l w = 0 := by
  cases l with
  | nil => rfl
  | cons c cs =>
    have := stepWidth_gt w c
    rw [colsWithin_cons, if_neg (by omega)]

theorem colsWithin_notab (rx : Nat) (t rest : List Char) (w : Nat) (ht : '\t' ∉ t)
    (h : w ≤ rx) :
    colsWithin rx (t ++ rest) w
      = if w + t.length ≤ rx then t.length + colsWithin rx rest (w + t.length) else rx - w := by
  induction t generalizing w with
  | nil => simp [h]
  | cons c cs ih =>
    have hc : c ≠ '\t' := fun e => ht (by simp [e])
    have hcs : '\t' ∉ cs := fun e => ht (by simp [e])
    have hs : stepWidth w c = w + 1 := by simp [stepWidth, hc]
    rw [List.cons_append, colsWithin_cons, hs, List.length_cons]
    by_cases h1 : w + 1 ≤ rx
    · rw [if_pos h1, ih (w + 1) hcs h1]
      by_cases h2 : w + 1 + cs.length ≤ rx
      · rw [if_pos h2, if_pos (by omega)]
        have e : w + (cs.length + 1) = w + 1 + cs.length := by omega
        rw [e]; omega
      · rw [if_neg h2, if_neg (by omega)]; omega
    · rw [if_neg h1, if_neg (by omega)]; omega

theorem rx_to_cx_loop_eq (rx : Nat) (r : Row) (curr_rx curr_len : Nat)
    (hr : tabsAlone r) (h : curr_rx ≤ rx) :
    rx_to_cx_loop rx r curr_rx curr_len = curr_len + colsWithin rx (rowText r) curr_rx := by
  induction r generalizing curr_rx curr_len with
  | nil => simp [rx_to_cx_loop, colsWithin_nil]
  | cons t ts ih =>
    have hts : tabsAlone ts := fun u hu => hr u (by simp [hu])
    unfold rx_to_cx_loop
    by_cases h1 : t = ['\t']
    · subst h1
      have hs : stepWidth curr_rx '\t' = curr_rx + (TAB_SIZE - curr_rx % TAB_SIZE) := by
        simp [stepWidth]
      have hm : curr_rx + TAB_SIZE - curr_rx % TAB_SIZE
          = curr_rx + (TAB_SIZE - curr_rx % TAB_SIZE) := by
        unfold TAB_SIZE; omega
      rw [if_pos rfl, rowText_cons, List.singleton_append, colsWithin_cons, hs, hm]
      by_cases h2 : curr_rx + (TAB_SIZE - curr_rx % TAB_SIZE) > rx
      · rw [if_pos h2, if_neg (by omega)]; rfl
      · rw [if_neg h2, if_pos (by omega), ih _ _ hts (by omega)]; omega
    · rw [if_neg h1]
      have ht : '\t' ∉ t := by
        rcases hr t (by simp) with e | e
        · exact absurd e h1
        · exact e
      rw [rowText_cons, colsWithin_notab rx t (rowText ts) curr_rx ht h]
      by_cases h2 : curr_rx + t.length < rx
      · rw [if_pos h2, if_pos (by omega), ih _ _ hts (by omega)]; omega
      · rw [if_neg h2]
        by_cases h3 : curr_rx + t.length ≤ rx
        · rw [if_pos h3, colsWithin_of_le rx _ _ (by omega)]; omega
        · rw [if_neg h3]; omega

theorem colsWithin_split (rx : Nat) (a : List Char) (x : Char) (b : List Char) (w : Nat)
    (h1 : a.foldl stepWidth w ≤ rx) (h2 : rx < stepWidth (a.foldl stepWidth w) x) :
    colsWithin rx (a ++ x :: b) w = a.length := by
  induction a generalizing w with
  | nil =>
    simp only [List.foldl_nil] at h1 h2
    rw [List.nil_append, colsWithin_cons, if_neg (by omega)]; rfl
  | cons c cs ih =>
    simp only [List.foldl_cons] at h1 h2
    have := foldl_stepWidth_ge cs (stepWidth w c)
    rw [List.cons_append, colsWithin_cons, if_pos (by omega), ih _ h1 h2, List.length_cons]
    omega

theorem colsWithin_all (rx : Nat) (l : List Char) (w : Nat) (h : l.foldl stepWidth w ≤ rx) :
    colsWithin rx l w = l.length := by
  induction l generalizing w with
  | nil => rfl
  | cons c cs ih =>
    simp only [List.foldl_cons] at h
    have := foldl_stepWidth_ge cs (stepWidth w c)
    rw [colsWithin_cons, if_pos (by omega), ih _ h, List.length_cons]; omega

theorem colsWithin_width_take (l : List Char) (cx : Nat) (h : cx ≤ l.length) :
    colsWithin (refRenderedWidth (l.take cx)) l 0 = cx := by
  rcases Nat.lt_or_ge cx l.length with hlt | hge
  · have hl : l = l.take cx ++ l[cx] :: l.drop (cx + 1) := by
      rw [← List.drop_eq_getElem_cons hlt, List.take_append_drop]
    have hk := colsWithin_split (refRenderedWidth (l.take cx)) (l.take cx) l[cx]
      (l.drop (cx + 1)) 0 (Nat.le_refl _) (stepWidth_gt _ _)
    rw [← hl] at hk
    rw [hk, List.length_take]; omega
  · have hcx : cx = l.length := by omega
    subst hcx
    rw [List.take_length]
    exact colsWithin_all _ l 0 (Nat.le_refl _)

theorem cx_to_rx_some (E : editorConfig) (at_ : Int) (r : Row) (hrow : rowAt E at_ = some r)
    (hr : tabsAlone r) (cx : Nat) :
    cx_to_rx E at_ cx = some (refRenderedWidth ((rowText r).take cx)) := by
  simp [cx_to_rx, hrow, cx_to_rx_loop_eq cx r 0 0 hr (Nat.zero_le _), refRenderedWidth]

theorem rx_to_cx_some (E : editorConfig) (at_ : Int) (r : Row) (hrow : rowAt E at_ = some r)
    (hr : tabsAlone r) (rx : Nat) :
    rx_to_cx E at_ rx = some (colsWithin rx (rowText r) 0) := by
  simp [rx_to_cx, hrow, rx_to_cx_loop_eq rx r 0 0 hr (Nat.zero_le _)]

/-- C7: coordinate round-trip. For every row produced by `process` (with or
without tab tokens) that is row `at` of the document, and every character
column `cx` with `0 <= cx <= length of the row's text`,
`rx_to_cx(at, cx_to_rx(at, cx)) == cx` (both calls return). -/
theorem coord_roundtrip (E : editorConfig) (at_ : Int) (s : List Char)
    (hrow : rowAt E at_ = some (process s)) (cx : Nat)
    (hcx : cx ≤ (rowText (process s)).length) :
    (cx_to_rx E at_ cx).bind (fun rx => rx_to_cx E at_ rx) = some cx := by
  rw [cx_to_rx_some E at_ _ hrow (process_tabsAlone s) cx, Option.some_bind,
    rx_to_cx_some E at_ _ hrow (process_tabsAlone s), colsWithin_width_take _ cx hcx]

theorem coord_roundtrip_witness :
    rowAt (docOf [process ['a', '\t', 'b']]) 0 = some (process ['a', '\t', 'b']) ∧
    2 ≤ (rowText (process ['a', '\t', 'b'])).length ∧
    (cx_to_rx (docOf [process ['a', '\t', 'b']]) 0 2).bind
      (fun rx => rx_to_cx (docOf [process ['a', '\t', 'b']]) 0 rx) = some 2 :=
  ⟨by decide, by decide,
    coord_roundtrip (docOf [process ['a', '\t', 'b']]) 0 ['a', '\t', 'b'] (by decide) 2
      (by decide)⟩

/-- C8: `cx_to_rx` equals the reference rendered width. For every row produced
by `process` that is row `at` of the document and every `cx` with
`0 <= cx <= length of the row's text`, `cx_to_rx(at, cx)` returns the fold of
`stepWidth` (tab: `w` to `w + (TAB_SIZE - w mod TAB_SIZE)`, `TAB_SIZE = 4`;
any other character: `w + 1`) over the first `cx` characters of the row's
text, starting from 0; and it returns `cx` itself when no tab lies before
`cx`. -/
theorem cx_to_rx_eq_width (E : editorConfig) (at_ : Int) (s : List Char)
    (hrow : rowAt E at_ = some (process s)) (cx : Nat)
    (hcx : cx ≤ (rowText (process s)).length) :
    TAB_SIZE = 4 ∧
    cx_to_rx E at_ cx = some (refRenderedWidth ((rowText (process s)).take cx)) ∧
    ('\t' ∉ (rowText (process s)).take cx → cx_to_rx E at_ cx = some cx) := by
  have h := cx_to_rx_some E at_ _ hrow (process_tabsAlone s) cx
  refine ⟨rfl, h, fun hnt => ?_⟩
  rw [h, refRenderedWidth, foldl_stepWidth_notab _ _ hnt, List.length_take]
  simp [Nat.min_eq_left hcx]

theorem cx_to_rx_eq_width_witness :
    rowAt (docOf [process ['a', '\t', 'b']]) 0 = some (process ['a', '\t', 'b']) ∧
    3 ≤ (rowText (process ['a', '\t', 'b'])).length ∧
    (TAB_SIZE = 4 ∧
      cx_to_rx (docOf [process ['a', '\t', 'b']]) 0 3
        = some (refRenderedWidth ((rowText (process ['a', '\t', 'b'])).take 3)) ∧
      ('\t' ∉ (rowText (process ['a', '\t', 'b'])).take 3 →
        cx_to_rx (docOf [process ['a', '\t', 'b']]) 0 3 = some 3)) ∧
    cx_to_rx (docOf [process ['a', '\t', 'b']]) 0 0 = some 0 ∧
    cx_to_rx (docOf [process ['a', '\t', 'b']]) 0 1 = some 1 ∧
    cx_to_rx (docOf [process ['a', '\t', 'b']]) 0 2 = some 4 ∧
    cx_to_rx (docOf [process ['a', '\t', 'b']]) 0 3 = some 5 :=
  ⟨by decide, by decide,
    cx_to_rx_eq_width (docOf [process ['a', '\t', 'b']]) 0 ['a', '\t', 'b'] (by decide) 3
      (by decide),
    by decide, by decide, by decide, by decide⟩

/-- C9: `rx_to_cx` collapses a tab's expansion to the tab's start column. For
every row produced by `process` that is row `at` of the document and every
tab token of it (token `i`, at character column `c`, the length of the text
of the tokens before it), `cx_to_rx(at, c)` and `cx_to_rx(at, c + 1)` return
`lo < hi`, every rendered column `rx` with `lo <= rx < hi` has
`rx_to_cx(at, rx) == c`, and `rx_to_cx(at, hi) == c + 1`. -/
theorem rx_to_cx_tab_collapse (E : editorConfig) (at_ : Int) (s : List Char)
    (hrow : rowAt E at_ = some (process s)) (i : Nat)
    (hi : (process s)[i]? = some ['\t']) :
    ∃ lo hi, cx_to_rx E at_ (rowText ((process s).take i)).length = some lo ∧
      cx_to_rx E at_ ((rowText ((process s).take i)).length + 1) = some hi ∧
      lo < hi ∧
      (∀ rx, lo ≤ rx → rx < hi →
        rx_to_cx E at_ rx = some (rowText ((process s).take i)).length) ∧
      rx_to_cx E at_ hi = some ((rowText ((process s).take i)).length + 1) := by
  have hta := process_tabsAlone s
  obtain ⟨hlt, hget⟩ := List.getElem?_eq_some_iff.1 hi
  have hsplit : process s = (process s).take i ++ ['\t'] :: (process s).drop (i + 1) := by
    rw [← hget, ← List.drop_eq_getElem_cons hlt, List.take_append_drop]
  have htext : rowText (process s)
      = rowText ((process s).take i) ++ '\t' :: rowText ((process s).drop (i + 1)) := by
    conv_lhs => rw [hsplit]
    simp
  generalize hA : rowText ((process s).take i) = A at htext ⊢
  generalize hB : rowText ((process s).drop (i + 1)) = B at htext
  have hlo : (rowText (process s)).take A.length = A := by
    rw [htext]; simp
  have hhi : (rowText (process s)).take (A.length + 1) = A ++ ['\t'] := by
    rw [htext]; exact take_succ_mid A B '\t'
  have hw : refRenderedWidth (A ++ ['\t']) = stepWidth (refRenderedWidth A) '\t' := by
    simp [refRenderedWidth]
  refine ⟨refRenderedWidth A, refRenderedWidth (A ++ ['\t']), ?_, ?_, ?_, ?_, ?_⟩
  · rw [cx_to_rx_some E at_ _ hrow hta, hlo]
  · rw [cx_to_rx_some E at_ _ hrow hta, hhi]
  · rw [hw]; exact stepWidth_gt _ _
  · intro rx h1 h2
    rw [rx_to_cx_some E at_ _ hrow hta, htext]
    rw [hw] at h2
    exact congrArg some (colsWithin_split rx A '\t' B 0 h1 h2)
  · rw [rx_to_cx_some E at_ _ hrow hta, ← hhi]
    have hle : A.length + 1 ≤ (rowText (process s)).length := by
      rw [htext]; simp
    exact congrArg some (colsWithin_width_take _ _ hle)

theorem rx_to_cx_tab_collapse_witness :
    rowAt (docOf [process ['a', '\t', 'b']]) 0 = some (process ['a', '\t', 'b']) ∧
    (process ['a', '\t', 'b'])[1]? = some ['\t'] ∧
    (∃ lo hi,
      cx_to_rx (docOf [process ['a', '\t', 'b']]) 0
        (rowText ((process ['a', '\t', 'b']).take 1)).length = some lo ∧
      cx_to_rx (docOf [process ['a', '\t', 'b']]) 0
        ((rowText ((process ['a', '\t', 'b']).take 1)).length + 1) = some hi ∧
      lo < hi ∧
      (∀ rx, lo ≤ rx → rx < hi →
        rx_to_cx (docOf [process ['a', '\t', 'b']]) 0 rx
          = some (rowText ((process ['a', '\t', 'b']).take 1)).length) ∧
      rx_to_cx (docOf [process ['a', '\t', 'b']]) 0 hi
        = some ((rowText ((process ['a', '\t', 'b']).take 1)).length + 1)) ∧
    rx_to_cx (docOf [process ['a', '\t', 'b']]) 0 2 = some 1 ∧
    rx_to_cx (docOf [process ['a', '\t', 'b']]) 0 3 = some 1 ∧
    rx_to_cx (docOf [process ['a', '\t', 'b']]) 0 4 = some 2 :=
  ⟨by decide, by decide,
    rx_to_cx_tab_collapse (docOf [process ['a', '\t', 'b']]) 0 ['a', '\t', 'b'] (by decide) 1
      (by decide),
    by decide, by decide, by decide⟩

/-! ### Row suffix -/

theorem get_idx_loop_at (cx : Nat) (r : Row) (i j curr_len : Nat) (t : Token)
    (ht : r[i]? = some t) (h1 : curr_len + (rowText (r.take i)).length ≤ cx)
    (h2 : cx < curr_len + (rowText (r.take i)).length + t.length) :
    get_idx_loop cx r j curr_len = (j + i, cx - (curr_len + (rowText (r.take i)).length)) := by
  induction r generalizing i j curr_len with
  | nil => simp at ht
  | cons u us ih =>
    unfold get_idx_loop
    cases i with
    | zero =>
      simp only [List.getElem?_cons_zero, Option.some.injEq] at ht
      subst ht
      simp only [List.take_zero, rowText_nil, List.length_nil, Nat.add_zero] at h1 h2 ⊢
      rw [if_neg (by omega)]
    | succ k =>
      simp only [List.getElem?_cons_succ] at ht
      simp only [List.take_succ_cons, rowText_cons, List.length_append] at h1 h2 ⊢
      rw [if_pos (by omega), ih k (j + 1) (curr_len + u.length) ht (by omega) (by omega)]
      congr 1 <;> omega

theorem getRow_row_past (r : Row) (col : Nat) (h : (rowText r).length ≤ col) :
    getRow_row r col = some [] := by
  simp [getRow_row, get_idx_row_ge r col h]

theorem getRow_row_text (r : Row) (col : Nat) (h : col < (rowText r).length) :
    ∃ ret, getRow_row r col = some ret ∧ rowText ret = (rowText r).drop col := by
  obtain ⟨pre, t, post, hr, hg, h1, h2⟩ := get_idx_row_lt r col h
  subst hr
  obtain ⟨o, rfl⟩ : ∃ o, col = (rowText pre).length + o :=
    ⟨col - (rowText pre).length, by omega⟩
  have ho : o ≤ t.length := by omega
  simp only [Nat.add_sub_cancel_left] at hg
  have hne : pre.length ≠ (pre ++ t :: post).length := by simp
  refine ⟨t.drop o :: post, ?_, ?_⟩
  · simp only [getRow_row, hg, getElem?_mid, hne, if_false, Option.bind_eq_bind,
      Option.some_bind, substr, if_pos ho]
    simp
  · simp only [rowText_append, rowText_cons, drop_len_add]
    rw [List.drop_append_of_le_length ho]

theorem getRow_row_at (r : Row) (col i : Nat) (t : Token) (ht : r[i]? = some t)
    (h1 : (rowText (r.take i)).length ≤ col)
    (h2 : col < (rowText (r.take i)).length + t.length) :
    getRow_row r col = some (t.drop (col - (rowText (r.take i)).length) :: r.drop (i + 1)) := by
  have hg := get_idx_loop_at col r i 0 0 t ht (by omega) (by omega)
  simp only [Nat.zero_add] at hg
  have hlt : i < r.length := (List.getElem?_eq_some_iff.1 ht).1
  have ho : col - (rowText (r.take i)).length ≤ t.length := by omega
  simp only [getRow_row, get_idx_row, hg, Nat.ne_of_lt hlt, ht, if_false, Option.bind_eq_bind,
    Option.some_bind, substr, if_pos ho]

/-- C10: `getRow` returns the text suffix as tokens. For every document in
which every index below `numrows` is a row (in particular when `numrows` is
the number of rows) and every `col >= 0`: for `at` outside `[0, numrows)`
`getRow(at, col)` returns the empty list; for `at` in `[0, numrows)` the row
`r` at `at` exists, `getRow(at, col)` returns a token list whose concatenation
is `r`'s text from position `col` to its end, the list is empty when `col` is
at or past the end of the row, and when `col` falls in token `i` of `r` (the
tokens before it hold at most `col` characters, together with token `i` more
than `col`) the list is the part of token `i` from `col` on followed by the
tokens of `r` after `i`, unchanged. -/
theorem getRow_suffix (E : editorConfig) (hn : E.numrows ≤ E.row.length) (at_ : Int)
    (col : Nat) :
    (at_ < 0 ∨ at_ ≥ E.numrows → getRow E at_ col = some []) ∧
    (0 ≤ at_ → at_ < E.numrows →
      ∃ r ret, rowAt E at_ = some r ∧ getRow E at_ col = some ret ∧
        rowText ret = (rowText r).drop col ∧
        ((rowText r).length ≤ col → ret = []) ∧
        (∀ (i : Nat) (t : Token), r[i]? = some t →
          (rowText (r.take i)).length ≤ col →
          col < (rowText (r.take i)).length + t.length →
          ret = t.drop (col - (rowText (r.take i)).length) :: r.drop (i + 1))) := by
  constructor
  · intro h
    simp [getRow, h]
  · intro h0 h1
    obtain ⟨r, hr⟩ := rowAt_some E hn at_ h0 h1
    have hg : ¬ (at_ < 0 ∨ at_ ≥ E.numrows) := by omega
    have hget : getRow E at_ col = getRow_row r col := by
      simp [getRow, hg, hr]
    have hat : ∀ (i : Nat) (t : Token), r[i]? = some t →
        (rowText (r.take i)).length ≤ col →
        col < (rowText (r.take i)).length + t.length →
        getRow_row r col
          = some (t.drop (col - (rowText (r.take i)).length) :: r.drop (i + 1)) :=
      fun i t ht a b => getRow_row_at r col i t ht a b
    rcases Nat.lt_or_ge col (rowText r).length with hlt | hge
    · obtain ⟨ret, hret, htxt⟩ := getRow_row_text r col hlt
      refine ⟨r, ret, hr, by rw [hget, hret], htxt, fun h => absurd hlt (by omega), ?_⟩
      intro i t ht a b
      have := hat i t ht a b
      rw [hret] at this
      exact Option.some.inj this
    · have hret := getRow_row_past r col hge
      refine ⟨r, [], hr, by rw [hget, hret], ?_, fun _ => rfl, ?_⟩
      · rw [List.drop_of_length_le hge]; rfl
      · intro i t ht a b
        have := hat i t ht a b
        rw [hret] at this
        exact Option.some.inj this

theorem getRow_suffix_witness :
    (docOf [[['a', 'b'], [' '], ['c', 'd']]]).numrows
        ≤ (docOf [[['a', 'b'], [' '], ['c', 'd']]]).row.length ∧
    (((0 : Int) < 0 ∨ (0 : Int) ≥ (docOf [[['a', 'b'], [' '], ['c', 'd']]]).numrows →
        getRow (docOf [[['a', 'b'], [' '], ['c', 'd']]]) 0 4 = some []) ∧
     ((0 : Int) ≤ 0 → (0 : Int) < (docOf [[['a', 'b'], [' '], ['c', 'd']]]).numrows →
      ∃ r ret, rowAt (docOf [[['a', 'b'], [' '], ['c', 'd']]]) 0 = some r ∧
        getRow (docOf [[['a', 'b'], [' '], ['c', 'd']]]) 0 4 = some ret ∧
        rowText ret = (rowText r).drop 4 ∧
        ((rowText r).length ≤ 4 → ret = []) ∧
        (∀ (i : Nat) (t : Token), r[i]? = some t →
          (rowText (r.take i)).length ≤ 4 →
          4 < (rowText (r.take i)).length + t.length →
          ret = t.drop (4 - (rowText (r.take i)).length) :: r.drop (i + 1)))) ∧
    getRow (docOf [[['a', 'b'], [' '], ['c', 'd']]]) 0 4 = some [['d']] ∧
    getRow (docOf [[['a', 'b'], [' '], ['c', 'd']]]) 0 5 = some [] ∧
    getRow (docOf [[['a', 'b'], [' '], ['c', 'd']]]) 1 0 = some [] :=
  ⟨by decide, getRow_suffix (docOf [[['a', 'b'], [' '], ['c', 'd']]]) (by decide) 0 4,
    by decide, by decide, by decide⟩

/-- C4 (evaluation at the failing input): on the tokenized row
`["ab"," ","cd"]`, `insertChar(0, 2, 'x')` yields the tokens
`["ab","x"," ","cd"]`, which are not in tokenized form (two whitespace-free
tokens are adjacent) and differ from `["abx"," ","cd"]`. -/
theorem insertChar_word_end_eval :
    tokenized [['a', 'b'], [' '], ['c', 'd']] ∧
    (insertChar (docOf [[['a', 'b'], [' '], ['c', 'd']]]) 0 2 'x').bind (fun E => rowAt E 0)
      = some [['a', 'b'], ['x'], [' '], ['c', 'd']] ∧
    ¬ tokenized [['a', 'b'], ['x'], [' '], ['c', 'd']] := by
  decide

/-- C5 (evaluation at the failing input): on the tokenized row
`[" "," ","b"]`, `deleteChar(0, 1)` removes the second space and then appends
the following token `"b"` to the space before it, leaving the single token
`" b"`, which is not in tokenized form. -/
theorem deleteChar_ws_merge_eval :
    tokenized [[' '], [' '], ['b']] ∧
    (deleteChar (docOf [[[' '], [' '], ['b']]]) 0 1).bind (fun E => rowAt E 0)
      = some [[' ', 'b']] ∧
    ¬ tokenized [[' ', 'b']] := by
  decide

/-- C6 (evaluation at the failing input): on the tokenized row `[" ","b"]`,
`insertChar(0, 1, ' ')` followed by `deleteChar(0, 1)` leaves the tokens
`[" b"]`, not the original `[" ","b"]`. -/
theorem insert_delete_ws_eval :
    tokenized [[' '], ['b']] ∧
    ((insertChar (docOf [[[' '], ['b']]]) 0 1 ' ').bind (fun E => deleteChar E 0 1)).bind
        (fun E => rowAt E 0)
      = some [[' ', 'b']] ∧
    ([[' ', 'b']] : Row) ≠ [[' '], ['b']] := by
  decide

/-! ### Row insertion and deletion -/

/-- C12: `insertRow` postcondition. For every document whose `numrows` is its
number of rows, every `at` in `[0, numrows]` and every string `s`, the call
`insertRow(at, s)` completes, the row sequence afterwards is the old rows
before `at`, then `process(s)`, then the old rows from `at` on, `numrows` is
one more than before and still the number of rows, and `dirty` is one more
than before. -/
theorem insertRow_post (E : editorConfig) (hn : E.numrows = E.row.length) (at_ : Int)
    (h0 : 0 ≤ at_) (h1 : at_ ≤ E.numrows) (s : List Char) :
    ∃ E1, insertRow E at_ s = some E1 ∧
      E1.row = E.row.take at_.toNat ++ process s :: E.row.drop at_.toNat ∧
      E1.numrows = E.numrows + 1 ∧ E1.numrows = E1.row.length ∧
      E1.dirty = E.dirty + 1 := by
  have hg : ¬ (at_ < 0 ∨ at_ > E.numrows) := by omega
  have hle : at_.toNat ≤ E.row.length := by omega
  refine ⟨{ E with row := E.row.take at_.toNat ++ process s :: E.row.drop at_.toNat,
                   numrows := E.numrows + 1, dirty := E.dirty + 1 }, ?_, rfl, rfl, ?_, rfl⟩
  · simp [insertRow, hg, vec_insert, hle]
  · simp only [List.length_append, List.length_take, List.length_cons, List.length_drop]
    omega

theorem insertRow_post_witness :
    (docOf [process ['a'], process ['b']]).numrows
        = (docOf [process ['a'], process ['b']]).row.length ∧
    (0 : Int) ≤ 1 ∧ (1 : Int) ≤ (docOf [process ['a'], process ['b']]).numrows ∧
    ∃ E1, insertRow (docOf [process ['a'], process ['b']]) 1 ['c', ' ', 'd'] = some E1 ∧
      E1.row = (docOf [process ['a'], process ['b']]).row.take (1 : Int).toNat
        ++ process ['c', ' ', 'd']
          :: (docOf [process ['a'], process ['b']]).row.drop (1 : Int).toNat ∧
      E1.numrows = (docOf [process ['a'], process ['b']]).numrows + 1 ∧
      E1.numrows = E1.row.length ∧
      E1.dirty = (docOf [process ['a'], process ['b']]).dirty + 1 :=
  ⟨by decide, by decide, by decide,
    insertRow_post (docOf [process ['a'], process ['b']]) (by decide) 1 (by decide)
      (by decide) ['c', ' ', 'd']⟩

/-- C13: row insert/delete inverse. For every document whose `numrows` is its
number of rows, every index `i` (in or out of range) and every string `s`,
`insertRow(i, s)` followed by `deleteRow(i)` completes, restores the prior
row count and leaves the sequence of rows exactly as it was before. -/
theorem insertRow_deleteRow (E : editorConfig) (hn : E.numrows = E.row.length) (i : Int)
    (s : List Char) :
    ∃ E1, (insertRow E i s).bind (fun E0 => deleteRow E0 i) = some E1 ∧
      E1.numrows = E.numrows ∧ E1.row = E.row := by
  by_cases hg : i < 0 ∨ i > E.numrows
  · have hg2 : i < 0 ∨ i ≥ E.numrows := by omega
    exact ⟨E, by simp [insertRow, deleteRow, hg, hg2], rfl, rfl⟩
  · have hle : i.toNat ≤ E.row.length := by omega
    have hg2 : ¬ (i < 0 ∨ i ≥ E.numrows + 1) := by omega
    have hlt : i.toNat < (E.row.take i.toNat ++ process s :: E.row.drop i.toNat).length := by
      simp only [List.length_append, List.length_take, List.length_cons, List.length_drop]
      omega
    have htake : (E.row.take i.toNat ++ process s :: E.row.drop i.toNat).take i.toNat
        = E.row.take i.toNat := by
      rw [List.take_append_of_le_length (by simp [hle])]
      simp [List.take_take]
    have hdrop : (E.row.take i.toNat ++ process s :: E.row.drop i.toNat).drop (i.toNat + 1)
        = E.row.drop i.toNat := by
      have hl : (E.row.take i.toNat).length = i.toNat := by simp [hle]
      have key : ∀ (A B : List Row) (x : Row) (n : Nat), A.length = n →
          (A ++ x :: B).drop (n + 1) = B := by
        intro A B x n h
        subst h
        simp
      exact key _ _ _ _ hl
    refine ⟨{ E with dirty := E.dirty + 1 + 1 }, ?_, rfl, rfl⟩
    simp only [insertRow, hg, if_false, vec_insert, hle, if_true, Option.bind_eq_bind,
      Option.some_bind, deleteRow, hg2, vec_erase, hlt, htake, hdrop, List.take_append_drop]
    simp

theorem insertRow_deleteRow_witness :
    (docOf [process ['a'], process ['b']]).numrows
        = (docOf [process ['a'], process ['b']]).row.length ∧
    ∃ E1, (insertRow (docOf [process ['a'], process ['b']]) 1 ['c', ' ', 'd']).bind
        (fun E0 => deleteRow E0 1) = some E1 ∧
      E1.numrows = (docOf [process ['a'], process ['b']]).numrows ∧
      E1.row = (docOf [process ['a'], process ['b']]).row :=
  ⟨by decide,
    insertRow_deleteRow (docOf [process ['a'], process ['b']]) (by decide) 1 ['c', ' ', 'd']⟩

/-- C16: an out-of-range row index is a no-op. For every document,
`insertRow(at, s)` with `at < 0` or `at > numrows`, and `deleteRow(at)`,
`insertChar(at, cx, c)` and `deleteChar(at, cx)` with `at < 0` or
`at >= numrows`, return the whole state (rows, `numrows`, `dirty` and every
other field) unchanged. -/
theorem out_of_range_noop (E : editorConfig) (at_ : Int) (s : List Char) (cx : Nat)
    (c : Char) :
    (at_ < 0 ∨ at_ > E.numrows → insertRow E at_ s = some E) ∧
    (at_ < 0 ∨ at_ ≥ E.numrows →
      deleteRow E at_ = some E ∧ insertChar E at_ cx c = some E ∧
      deleteChar E at_ cx = some E) := by
  refine ⟨fun h => ?_, fun h => ⟨?_, ?_, ?_⟩⟩
  · simp [insertRow, h]
  · simp [deleteRow, h]
  · simp [insertChar, h]
  · simp [deleteChar, h]

/-! ### Viewport -/

/-- C14: viewport invariant after scroll. For every state in which every index
below `numrows` is a row (in particular every non-empty document whose
`numrows` is its number of rows), with `0 <= cy`, `0 <= cx`,
`screenrows >= 1` and `screencols >= 1`, `scroll()` completes without moving
the cursor or resizing the screen; afterwards `rx` equals `cx_to_rx(cy, cx)`
when `cy < numrows` and 0 otherwise, `rowoff <= cy < rowoff + screenrows` and
`coloff <= rx < coloff + screencols`. -/
theorem scroll_viewport (E : editorConfig) (hn : E.numrows ≤ E.row.length)
    (hcy : 0 ≤ E.cy) (hcx : 0 ≤ E.cx) (hsr : 1 ≤ E.screenrows) (hsc : 1 ≤ E.screencols) :
    ∃ E1, scroll E = some E1 ∧
      (E.cy < E.numrows → ∃ n : Nat, cx_to_rx E E.cy E.cx.toNat = some n ∧ E1.rx = n) ∧
      (¬ E.cy < E.numrows → E1.rx = 0) ∧
      E1.cy = E.cy ∧ E1.cx = E.cx ∧ E1.screenrows = E.screenrows ∧
      E1.screencols = E.screencols ∧
      E1.rowoff ≤ E1.cy ∧ E1.cy < E1.rowoff + E1.screenrows ∧
      E1.coloff ≤ E1.rx ∧ E1.rx < E1.coloff + E1.screencols := by
  have hrx : ∃ rx : Int,
      (if E.cy < E.numrows then cx_to_rx_int E E.cy E.cx else some 0) = some rx ∧
      (E.cy < E.numrows → ∃ n : Nat, cx_to_rx E E.cy E.cx.toNat = some n ∧ rx = n) ∧
      (¬ E.cy < E.numrows → rx = 0) := by
    by_cases h : E.cy < E.numrows
    · obtain ⟨r, hr⟩ := rowAt_some E hn E.cy hcy h
      refine ⟨(cx_to_rx_loop E.cx.toNat r 0 0 : Nat), ?_, fun _ => ⟨_, ?_, rfl⟩,
        fun h2 => absurd h h2⟩
      · simp [h, cx_to_rx_int, hcx, cx_to_rx, hr]
      · simp [cx_to_rx, hr]
    · exact ⟨0, by simp [h], fun h2 => absurd h2 h, fun _ => rfl⟩
  obtain ⟨rx, hrx1, hrx2, hrx3⟩ := hrx
  have hs : scroll E = some { E with
      rx := rx,
      rowoff := if E.cy ≥ (if E.cy < E.rowoff then E.cy else E.rowoff) + E.screenrows
        then E.cy - E.screenrows + 1 else (if E.cy < E.rowoff then E.cy else E.rowoff),
      coloff := if rx ≥ (if rx < E.coloff then rx else E.coloff) + E.screencols
        then rx - E.screencols + 1 else (if rx < E.coloff then rx else E.coloff) } := by
    unfold scroll
    rw [hrx1]
    rfl
  have hrx0 : 0 ≤ rx := by
    by_cases h : E.cy < E.numrows
    · obtain ⟨n, -, hn2⟩ := hrx2 h
      omega
    · rw [hrx3 h]
  refine ⟨_, hs, hrx2, hrx3, rfl, rfl, rfl, rfl, ?_, ?_, ?_, ?_⟩ <;> dsimp only <;>
    split_ifs <;> omega

theorem scroll_viewport_witness :
    ({ docOf [process ['a', '\t', 'b']] with cx := 3, screencols := 2 }).numrows
      ≤ ({ docOf [process ['a', '\t', 'b']] with cx := 3, screencols := 2 }).row.length ∧
    ∃ E1, scroll { docOf [process ['a', '\t', 'b']] with cx := 3, screencols := 2 } = some E1 ∧
      E1.rx = 5 ∧ E1.coloff = 4 ∧ E1.rowoff = 0 ∧
      E1.rowoff ≤ E1.cy ∧ E1.cy < E1.rowoff + E1.screenrows ∧
      E1.coloff ≤ E1.rx ∧ E1.rx < E1.coloff + E1.screencols := by
  refine ⟨by decide, ?_⟩
  obtain ⟨E1, h1, -, -, -, -, -, -, h2, h3, h4, h5⟩ :=
    scroll_viewport { docOf [process ['a', '\t', 'b']] with cx := 3, screencols := 2 }
      (by decide) (by decide) (by decide) (by decide) (by decide)
  have he : scroll { docOf [process ['a', '\t', 'b']] with cx := 3, screencols := 2 }
      = some { docOf [process ['a', '\t', 'b']] with
                cx := 3, screencols := 2, rx := 5, coloff := 4 } := by decide
  rw [he] at h1
  cases h1
  exact ⟨_, he, rfl, rfl, rfl, h2, h3, h4, h5⟩

/-! ### What `get_idx` returns, in the document -/

/-- C19: `get_idx` locates the token and never returns an offset at a token's
end. For every row `r` that is row `at` of the document and every `cx >= 0`:
if `cx` is at or beyond the length of `r`'s text, `get_idx(at, cx)` returns
`(tokenCount, 0)`; otherwise it returns `(i, off)` with `i < tokenCount`,
`off` less than the length of token `i`, and the lengths of the tokens before
`i` plus `off` equal to `cx`.  Consequently, whenever `get_idx` returns
`(i, off)` and token `i` exists, `off` differs from the length of token `i`:
the test of the "logic of get_idx() is wrong" branch of `deleteChar` never
succeeds. -/
theorem get_idx_locates (E : editorConfig) (at_ : Int) (r : Row)
    (hrow : rowAt E at_ = some r) (cx : Nat) :
    ((rowText r).length ≤ cx → get_idx E at_ cx = some (r.length, 0)) ∧
    (cx < (rowText r).length →
      ∃ i off t, get_idx E at_ cx = some (i, off) ∧ i < r.length ∧ r[i]? = some t ∧
        off < t.length ∧ (rowText (r.take i)).length + off = cx) ∧
    (∀ i off t, get_idx E at_ cx = some (i, off) → r[i]? = some t → off ≠ t.length) := by
  have hget : get_idx E at_ cx = some (get_idx_row r cx) := by simp [get_idx, hrow]
  have hlt : cx < (rowText r).length →
      ∃ i off t, get_idx_row r cx = (i, off) ∧ i < r.length ∧ r[i]? = some t ∧
        off < t.length ∧ (rowText (r.take i)).length + off = cx := by
    intro h
    obtain ⟨pre, t, post, hr, hg, h1, h2⟩ := get_idx_row_lt r cx h
    subst hr
    refine ⟨pre.length, cx - (rowText pre).length, t, hg, by simp, getElem?_mid pre post t,
      by omega, ?_⟩
    rw [List.take_left' rfl]
    omega
  refine ⟨fun h => ?_, fun h => ?_, ?_⟩
  · rw [hget, get_idx_row_ge r cx h]
  · obtain ⟨i, off, t, hg, h1, h2, h3, h4⟩ := hlt h
    exact ⟨i, off, t, by rw [hget, hg], h1, h2, h3, h4⟩
  · intro i off t hg ht
    rw [hget] at hg
    have hg2 : get_idx_row r cx = (i, off) := Option.some.inj hg
    rcases Nat.lt_or_ge cx (rowText r).length with h | h
    · obtain ⟨i2, off2, t2, hg3, -, h2, h3, -⟩ := hlt h
      rw [hg2] at hg3
      cases hg3
      rw [ht] at h2
      cases h2
      omega
    · rw [get_idx_row_ge r cx h] at hg2
      cases hg2
      have := (List.getElem?_eq_some_iff.1 ht).1
      omega

theorem get_idx_locates_witness :
    rowAt (docOf [[['a', 'b'], [' '], ['c', 'd']]]) 0 = some [['a', 'b'], [' '], ['c', 'd']] ∧
    (((rowText [['a', 'b'], [' '], ['c', 'd']]).length ≤ 2 →
        get_idx (docOf [[['a', 'b'], [' '], ['c', 'd']]]) 0 2
          = some (([['a', 'b'], [' '], ['c', 'd']] : Row).length, 0)) ∧
      (2 < (rowText [['a', 'b'], [' '], ['c', 'd']]).length →
        ∃ i off t, get_idx (docOf [[['a', 'b'], [' '], ['c', 'd']]]) 0 2 = some (i, off) ∧
          i < ([['a', 'b'], [' '], ['c', 'd']] : Row).length ∧
          ([['a', 'b'], [' '], ['c', 'd']] : Row)[i]? = some t ∧
          off < t.length ∧
          (rowText (([['a', 'b'], [' '], ['c', 'd']] : Row).take i)).length + off = 2) ∧
      (∀ i off t, get_idx (docOf [[['a', 'b'], [' '], ['c', 'd']]]) 0 2 = some (i, off) →
        ([['a', 'b'], [' '], ['c', 'd']] : Row)[i]? = some t → off ≠ t.length)) ∧
    get_idx (docOf [[['a', 'b'], [' '], ['c', 'd']]]) 0 2 = some (1, 0) ∧
    get_idx (docOf [[['a', 'b'], [' '], ['c', 'd']]]) 0 5 = some (3, 0) :=
  ⟨by decide,
    get_idx_locates (docOf [[['a', 'b'], [' '], ['c', 'd']]]) 0 _ (by decide) 2,
    by decide, by decide⟩

/-! ### Evaluations at failing inputs -/

/-- C15 (evaluation at the failing input): on the one-row document `["a"]`
with `dirty == 0`, `insertChar(0, 0, 'x')` changes the row to `["xa"]` and
leaves `dirty` at 0; on `["ab"]`, `deleteChar(0, 0)` changes the row to
`["b"]` and leaves `dirty` at 0; `insertRow` and `deleteRow` on the same
document do add one. -/
theorem char_edit_dirty_eval :
    (docOf [process ['a']]).dirty = 0 ∧
    (insertChar (docOf [process ['a']]) 0 0 'x').map (fun E => (E.row, E.dirty))
      = some ([[['x', 'a']]], 0) ∧
    (deleteChar (docOf [process ['a', 'b']]) 0 0).map (fun E => (E.row, E.dirty))
      = some ([[['b']]], 0) ∧
    (insertRow (docOf [process ['a']]) 0 ['b']).map (fun E => (E.row, E.dirty))
      = some ([[['b']], [['a']]], 1) ∧
    (deleteRow (docOf [process ['a']]) 0).map (fun E => (E.row, E.dirty))
      = some ([], 1) :=
  ⟨by decide, by decide, by decide, by decide, by decide⟩

/-- C18 (evaluation at the failing input): for the one-row document with text
`a`, TAB, `b`, `coloff == 0`, one screen row and 80 columns, `drawRows`
emits, before the line-clear sequence, the reverse-video escape for the tab
(`ESC[7m I ESC[m`) followed by `a`, three spaces, the tab character itself
and `b`: the tab is still in the output and the text after the escape has 6
characters, while `cx_to_rx` of the row's length is 5. -/
theorem drawRows_tab_eval :
    drawRows { docOf [process ['a', '\t', 'b']] with screenrows := 1 } []
      = some (['\x1b', '[', '7', 'm', 'I', '\x1b', '[', 'm'] ++
          ['a', ' ', ' ', ' ', '\t', 'b'] ++ ['\x1b', '[', 'K', '\r', '\n']) ∧
    drawRow { docOf [process ['a', '\t', 'b']] with screenrows := 1 } 0
      = some (['\x1b', '[', '7', 'm', 'I', '\x1b', '[', 'm'] ++
          ['a', ' ', ' ', ' ', '\t', 'b']) ∧
    cx_to_rx { docOf [process ['a', '\t', 'b']] with screenrows := 1 } 0 3 = some 5 := by
  decide

/-- C20 (evaluation at the failing input): on the one-row document `["a"]`
(`numrows == 1`, one row), `appendRow(1, 0, 0)` passes the guard
`at1 > numrows`, `getRow(0, 0)` returns `["a"]`, and the loop indexes
`row[1]`, which does not exist: the call has no defined result. -/
theorem appendRow_at_numrows_eval :
    (docOf [process ['a']]).numrows = (docOf [process ['a']]).row.length ∧
    (docOf [process ['a']]).numrows = 1 ∧
    getRow (docOf [process ['a']]) 0 0 = some [['a']] ∧
    rowAt (docOf [process ['a']]) 1 = none ∧
    appendRow (docOf [process ['a']]) 1 0 0 = none := by
  decide

/-! ### Shape of the tokenizer's output -/

theorem noAdjacentWords_concat (r : Row) (x : Token) (h : noAdjacentWords r)
    (hl : ∀ l ∈ r.getLast?, wsTok l ∨ wsTok x) : noAdjacentWords (r ++ [x]) := by
  induction r with
  | nil => simp [noAdjacentWords]
  | cons a as ih =>
    cases as with
    | nil =>
      simp only [List.getLast?_singleton, Option.mem_def, Option.some.injEq,
        forall_eq'] at hl
      simp [noAdjacentWords, hl]
    | cons b bs =>
      simp only [noAdjacentWords] at h
      simp only [List.getLast?_cons_cons] at hl
      have := ih h.2 hl
      simp only [List.cons_append, noAdjacentWords] at this ⊢
      exact ⟨h.1, this⟩

theorem noAdjacentWords_index (r : Row) (h : noAdjacentWords r) (i : Nat) (t u : Token)
    (ht : r[i]? = some t) (hu : r[i + 1]? = some u) : wsTok t ∨ wsTok u := by
  induction r generalizing i with
  | nil => simp at ht
  | cons a as ih =>
    cases as with
    | nil => simp at hu
    | cons b bs =>
      simp only [noAdjacentWords] at h
      cases i with
      | zero =>
        simp only [List.getElem?_cons_zero, Option.some.injEq, Nat.zero_add,
          List.getElem?_cons_succ] at ht hu
        subst ht hu
        exact h.1
      | succ k =>
        simp only [List.getElem?_cons_succ] at ht hu
        exact ih h.2 k ht (by simpa using hu)

theorem process_loop_noAdjacent (s : List Char) (ret : Row) (curr : Token)
    (h : noAdjacentWords ret) (hl : ∀ l ∈ ret.getLast?, wsTok l) :
    noAdjacentWords (process_loop s ret curr) := by
  have hflush : noAdjacentWords (if curr ≠ [] then ret ++ [curr] else ret) := by
    by_cases hc : curr = []
    · simpa [hc] using h
    · simp only [ne_eq, hc, not_false_eq_true, if_true]
      exact noAdjacentWords_concat ret curr h (fun l hm => Or.inl (hl l hm))
  induction s generalizing ret curr with
  | nil =>
    unfold process_loop
    exact hflush
  | cons c cs ih =>
    unfold process_loop
    by_cases hc : c = '\t' ∨ c = ' '
    · rw [if_pos hc]
      have hw : wsTok [c] := by
        rcases hc with rfl | rfl
        · right; rfl
        · left; rfl
      have h1 := noAdjacentWords_concat _ [c] hflush (fun _ _ => Or.inr hw)
      refine ih _ [] h1 ?_ ?_
      · intro l hm
        rw [List.getLast?_concat] at hm
        cases hm
        exact hw
      · simpa using h1
    · rw [if_neg hc]
      refine ih ret (curr ++ [c]) h hl ?_
      have hne : curr ++ [c] ≠ [] := by simp
      simp only [ne_eq, hne, not_false_eq_true, if_true]
      exact noAdjacentWords_concat ret _ h (fun l hm => Or.inl (hl l hm))

theorem process_loop_tokOK (s : List Char) (ret : Row) (curr : Token)
    (hret : ∀ t ∈ ret, tokOK t) (hcurr : ' ' ∉ curr ∧ '\t' ∉ curr) :
    ∀ t ∈ process_loop s ret curr, tokOK t := by
  have hflush : ∀ t ∈ (if curr ≠ [] then ret ++ [curr] else ret), tokOK t := by
    by_cases hc : curr = []
    · simpa [hc] using hret
    · simp only [ne_eq, hc, not_false_eq_true, if_true]
      intro t ht
      rcases List.mem_append.1 ht with h1 | h1
      · exact hret t h1
      · simp only [List.mem_singleton] at h1
        subst h1
        exact ⟨hc, Or.inr hcurr⟩
  induction s generalizing ret curr with
  | nil =>
    unfold process_loop
    exact hflush
  | cons c cs ih =>
    unfold process_loop
    by_cases hc : c = '\t' ∨ c = ' '
    · rw [if_pos hc]
      have hw : wsTok [c] := by
        rcases hc with rfl | rfl
        · right; rfl
        · left; rfl
      have h1 : ∀ t ∈ (if curr ≠ [] then ret ++ [curr] else ret) ++ [[c]], tokOK t := by
        intro t ht
        rcases List.mem_append.1 ht with h2 | h2
        · exact hflush t h2
        · simp only [List.mem_singleton] at h2
          subst h2
          exact ⟨by simp, Or.inl hw⟩
      exact ih _ [] h1 (by simp) (by simpa using h1)
    · rw [if_neg hc]
      have hc2 : ' ' ∉ curr ++ [c] ∧ '\t' ∉ curr ++ [c] := by
        constructor
        · intro hm
          rcases List.mem_append.1 hm with h2 | h2
          · exact hcurr.1 h2
          · simp only [List.mem_singleton] at h2
            exact hc (Or.inr h2.symm)
        · intro hm
          rcases List.mem_append.1 hm with h2 | h2
          · exact hcurr.2 h2
          · simp only [List.mem_singleton] at h2
            exact hc (Or.inl h2.symm)
      refine ih ret (curr ++ [c]) hret hc2 ?_
      have hne : curr ++ [c] ≠ [] := by simp
      simp only [ne_eq, hne, not_false_eq_true, if_true]
      intro t ht
      rcases List.mem_append.1 ht with h1 | h1
      · exact hret t h1
      · simp only [List.mem_singleton] at h1
        subst h1
        exact ⟨hne, Or.inr hc2⟩

theorem process_tokOK (s : List Char) : ∀ t ∈ process s, tokOK t :=
  process_loop_tokOK s [] [] (by simp) (by simp)

theorem process_noAdjacent (s : List Char) : noAdjacentWords (process s) :=
  process_loop_noAdjacent s [] [] (by simp [noAdjacentWords]) (by simp)

theorem getElem?_len_add {α : Type} (a b : List α) (o : Nat) :
    (a ++ b)[a.length + o]? = b[o]? := by
  rw [List.getElem?_append_right (Nat.le_add_right _ _), Nat.add_sub_cancel_left]

theorem split_at_token (r : Row) (i : Nat) (t : Token) (ht : r[i]? = some t) :
    r = r.take i ++ t :: r.drop (i + 1) := by
  obtain ⟨hlt, hget⟩ := List.getElem?_eq_some_iff.1 ht
  rw [← hget, ← List.drop_eq_getElem_cons hlt, List.take_append_drop]

theorem wsTok_of_mem (t : Token) (c : Char) (hok : tokOK t) (hc : c ∈ t)
    (hw : c = ' ' ∨ c = '\t') : t = [c] := by
  rcases hok.2 with h | h
  · rcases h with rfl | rfl
    · simp only [List.mem_singleton] at hc
      rw [hc]
    · simp only [List.mem_singleton] at hc
      rw [hc]
  · rcases hw with rfl | rfl
    · exact absurd hc h.1
    · exact absurd hc h.2

theorem wsTok_char (t : Token) (h : wsTok t) :
    ∃ c, t = [c] ∧ (c = ' ' ∨ c = '\t') := by
  rcases h with rfl | rfl
  · exact ⟨' ', rfl, Or.inl rfl⟩
  · exact ⟨'\t', rfl, Or.inr rfl⟩

theorem ws_char_is_token (r : Row) (hok : ∀ t ∈ r, tokOK t) (j : Nat) (c : Char)
    (hj : (rowText r)[j]? = some c) (hw : c = ' ' ∨ c = '\t') :
    ∃ i, r[i]? = some [c] ∧ (rowText (r.take i)).length = j := by
  have hlt : j < (rowText r).length := (List.getElem?_eq_some_iff.1 hj).1
  obtain ⟨pre, t, post, hr, -, h1, h2⟩ := get_idx_row_lt r j hlt
  subst hr
  obtain ⟨o, rfl⟩ : ∃ o, j = (rowText pre).length + o := ⟨j - (rowText pre).length, by omega⟩
  have ho : o < t.length := by omega
  rw [rowText_append, rowText_cons, getElem?_len_add,
    List.getElem?_append_left ho] at hj
  have hmem : c ∈ t := List.getElem?_mem hj
  have ht : t = [c] := wsTok_of_mem t c (hok t (by simp)) hmem hw
  subst ht
  have ho0 : o = 0 := by simpa using ho
  subst ho0
  exact ⟨pre.length, getElem?_mid pre post [c], by rw [List.take_left' rfl]; rfl⟩

theorem noAdjacentWords_mid (pre : Row) (t u : Token) (post : Row)
    (h : noAdjacentWords (pre ++ t :: u :: post)) : wsTok t ∨ wsTok u := by
  induction pre with
  | nil => exact h.1
  | cons a as ih =>
    cases as with
    | nil => exact h.2.1
    | cons b bs => exact ih h.2

theorem word_next_char (pre : Row) (t : Token) (post : Row)
    (hok : ∀ x ∈ pre ++ t :: post, tokOK x) (hadj : noAdjacentWords (pre ++ t :: post))
    (ht : ¬ wsTok t) (c : Char)
    (hc : (rowText (pre ++ t :: post))[(rowText pre).length + t.length]? = some c) :
    c = ' ' ∨ c = '\t' := by
  cases post with
  | nil =>
    have hlt := (List.getElem?_eq_some_iff.1 hc).1
    simp only [rowText_append, rowText_cons, rowText_nil, List.append_nil,
      List.length_append] at hlt
    omega
  | cons u post1 =>
    have hu : wsTok u := by
      rcases noAdjacentWords_mid pre t u post1 hadj with h | h
      · exact absurd h ht
      · exact h
    obtain ⟨d, rfl, hd⟩ := wsTok_char u hu
    have e : rowText (pre ++ t :: [d] :: post1)
        = (rowText pre ++ t) ++ (d :: rowText post1) := by simp
    have e2 : (rowText pre).length + t.length = (rowText pre ++ t).length + 0 := by simp
    rw [e, e2, getElem?_len_add] at hc
    simp only [List.getElem?_cons_zero, Option.some.injEq] at hc
    rw [← hc]
    exact hd

theorem word_prev_char (pre : Row) (t : Token) (post : Row)
    (hok : ∀ x ∈ pre ++ t :: post, tokOK x) (hadj : noAdjacentWords (pre ++ t :: post))
    (ht : ¬ wsTok t) (c : Char) (hpos : 0 < (rowText pre).length)
    (hc : (rowText (pre ++ t :: post))[(rowText pre).length - 1]? = some c) :
    c = ' ' ∨ c = '\t' := by
  rcases List.eq_nil_or_concat pre with hpre | ⟨pre1, p, hpre⟩
  · subst hpre
    simp at hpos
  · rw [List.concat_eq_append] at hpre
    subst hpre
    have hp : wsTok p := by
      have h2 : noAdjacentWords (pre1 ++ p :: t :: post) := by simpa using hadj
      rcases noAdjacentWords_mid pre1 p t post h2 with h | h
      · exact h
      · exact absurd h ht
    obtain ⟨d, rfl, hd⟩ := wsTok_char p hp
    have e : rowText (pre1 ++ [[d]] ++ t :: post)
        = rowText pre1 ++ (d :: (t ++ rowText post)) := by simp
    have e2 : (rowText (pre1 ++ [[d]])).length - 1 = (rowText pre1).length + 0 := by simp
    rw [e, e2, getElem?_len_add] at hc
    simp only [List.getElem?_cons_zero, Option.some.injEq] at hc
    rw [← hc]
    exact hd

/-- C17: the tokenizer's output is in tokenized form. For every string `s`:
the tokens of `process(s)` concatenate to `s`; no token is empty; every space
or tab character of `s` (at any position `j`) is a token of `process(s)` of
length exactly one, the token that starts at position `j`; a token that holds
a space or a tab has length one, and every token is either such a whitespace
token or contains neither a space nor a tab; of any two neighbouring tokens at
least one is a whitespace token (no two Word tokens are adjacent); and each
Word token is a maximal run: the character of `s` just before it and the
character of `s` just after it, when there is one, is a space or a tab. -/
theorem process_tokenized_form (s : List Char) :
    rowText (process s) = s ∧
    (∀ t ∈ process s, t ≠ []) ∧
    (∀ (j : Nat) (c : Char), s[j]? = some c → (c = ' ' ∨ c = '\t') →
      ∃ i, (process s)[i]? = some [c] ∧ (rowText ((process s).take i)).length = j) ∧
    (∀ t ∈ process s, (' ' ∈ t ∨ '\t' ∈ t) → t.length = 1) ∧
    (∀ t ∈ process s, wsTok t ∨ (' ' ∉ t ∧ '\t' ∉ t)) ∧
    (∀ (i : Nat) (t u : Token), (process s)[i]? = some t → (process s)[i + 1]? = some u →
      wsTok t ∨ wsTok u) ∧
    (∀ (i : Nat) (t : Token), (process s)[i]? = some t → ¬ wsTok t →
      (∀ c : Char, 0 < (rowText ((process s).take i)).length →
        s[(rowText ((process s).take i)).length - 1]? = some c → c = ' ' ∨ c = '\t') ∧
      (∀ c : Char, s[(rowText ((process s).take i)).length + t.length]? = some c →
        c = ' ' ∨ c = '\t')) := by
  have htext := rowText_process s
  have hok := process_tokOK s
  have hadj := process_noAdjacent s
  refine ⟨htext, fun t ht => (hok t ht).1, ?_, fun t ht hws => ?_, fun t ht => (hok t ht).2,
    fun i t u ht hu => noAdjacentWords_index _ hadj i t u ht hu, ?_⟩
  · intro j c hj hw
    rw [← htext] at hj
    exact ws_char_is_token (process s) hok j c hj hw
  · rcases (hok t ht).2 with hw | hw
    · rcases hw with rfl | rfl <;> rfl
    · rcases hws with h | h
      · exact absurd h hw.1
      · exact absurd h hw.2
  · intro i t ht hnw
    have hsplit := split_at_token (process s) i t ht
    generalize hpre : (process s).take i = pre at hsplit ⊢
    generalize hpost : (process s).drop (i + 1) = post at hsplit
    have hok2 : ∀ x ∈ pre ++ t :: post, tokOK x := by rw [← hsplit]; exact hok
    have hadj2 : noAdjacentWords (pre ++ t :: post) := by rw [← hsplit]; exact hadj
    have hs : s = rowText (pre ++ t :: post) := by rw [← hsplit, htext]
    constructor
    · intro c hpos hc
      rw [hs] at hc
      exact word_prev_char pre t post hok2 hadj2 hnw c hpos hc
    · intro c hc
      rw [hs] at hc
      exact word_next_char pre t post hok2 hadj2 hnw c hc

/-! ### Splitting a row and appending the tail -/

theorem process_loop_ret (s : List Char) (ret : Row) (curr : Token) :
    process_loop s ret curr = ret ++ process_loop s [] curr := by
  induction s generalizing ret curr with
  | nil =>
    unfold process_loop
    by_cases hc : curr = [] <;> simp [hc]
  | cons c cs ih =>
    unfold process_loop
    by_cases hw : c = '\t' ∨ c = ' '
    · rw [if_pos hw, if_pos hw, ih ((if curr ≠ [] then ret ++ [curr] else ret) ++ [[c]]) [],
        ih ((if curr ≠ [] then [] ++ [curr] else []) ++ [[c]]) []]
      by_cases hc : curr = [] <;> simp [hc]
    · rw [if_neg hw, if_neg hw]
      exact ih ret (curr ++ [c])

theorem process_nil : process [] = [] := by
  simp [process, process_loop]

theorem process_loop_append (a b : List Char) (ret : Row) (curr : Token)
    (h : b = [] ∨ (∃ c b1, b = c :: b1 ∧ (c = '\t' ∨ c = ' ')) ∨
      (∃ c ∈ a.getLast?, c = '\t' ∨ c = ' ') ∨ (a = [] ∧ curr = [])) :
    process_loop (a ++ b) ret curr = process_loop a ret curr ++ process b := by
  induction a generalizing ret curr with
  | nil =>
    rw [List.nil_append]
    rcases h with h | ⟨c, b1, rfl, hw⟩ | ⟨c, hc, -⟩ | ⟨-, rfl⟩
    · subst h
      rw [process_nil, List.append_nil]
    · have e1 : process_loop (c :: b1) ret curr
          = process_loop b1 ((if curr ≠ [] then ret ++ [curr] else ret) ++ [[c]]) [] := by
        rw [process_loop, if_pos hw]
      have e2 : process (c :: b1) = process_loop b1 ([] ++ [[c]]) [] := by
        rw [process, process_loop, if_pos hw]
        simp
      have e3 : process_loop [] ret curr = (if curr ≠ [] then ret ++ [curr] else ret) := by
        rw [process_loop]
      rw [e1, e2, e3, process_loop_ret b1 (_ ++ [[c]]) [], process_loop_ret b1 ([] ++ [[c]]) []]
      simp
    · simp at hc
    · rw [process_loop_ret b ret [], process]
      simp [process_loop]
  | cons x a1 ih =>
    have hcond : ∀ curr1 : Token, (x = '\t' ∨ x = ' ' → curr1 = []) →
        (b = [] ∨ (∃ c b1, b = c :: b1 ∧ (c = '\t' ∨ c = ' ')) ∨
          (∃ c ∈ a1.getLast?, c = '\t' ∨ c = ' ') ∨ (a1 = [] ∧ curr1 = [])) := by
      intro curr1 hx
      rcases h with h | h | ⟨c, hc, hw⟩ | ⟨h, -⟩
      · exact Or.inl h
      · exact Or.inr (Or.inl h)
      · cases a1 with
        | nil =>
          simp only [List.getLast?_singleton, Option.mem_def, Option.some.injEq] at hc
          subst hc
          exact Or.inr (Or.inr (Or.inr ⟨rfl, hx hw⟩))
        | cons y a2 =>
          rw [List.getLast?_cons_cons] at hc
          exact Or.inr (Or.inr (Or.inl ⟨c, hc, hw⟩))
      · cases h
    rw [List.cons_append]
    by_cases hw : x = '\t' ∨ x = ' '
    · rw [process_loop, if_pos hw, process_loop, if_pos hw]
      exact ih _ [] (hcond [] (fun _ => rfl))
    · rw [process_loop, if_neg hw, process_loop, if_neg hw]
      exact ih ret (curr ++ [x]) (hcond _ (fun h2 => absurd h2 hw))

theorem process_append (a b : List Char)
    (h : a = [] ∨ b = [] ∨ (∃ c ∈ a.getLast?, c = '\t' ∨ c = ' ') ∨
      (∃ c ∈ b.head?, c = '\t' ∨ c = ' ')) :
    process (a ++ b) = process a ++ process b := by
  unfold process
  apply process_loop_append
  rcases h with h | h | h | ⟨c, hc, hw⟩
  · exact Or.inr (Or.inr (Or.inr ⟨h, rfl⟩))
  · exact Or.inl h
  · exact Or.inr (Or.inr (Or.inl h))
  · cases b with
    | nil => simp at hc
    | cons y b1 =>
      simp only [List.head?_cons, Option.mem_def, Option.some.injEq] at hc
      subst hc
      exact Or.inr (Or.inl ⟨y, b1, rfl, hw⟩)

theorem getRow_row_boundary (a b : List Char) :
    getRow_row (process a ++ process b) a.length = some (process b) := by
  cases hb : process b with
  | nil =>
    rw [List.append_nil]
    exact getRow_row_past _ _ (by rw [rowText_process])
  | cons t rest =>
    have hne : t ≠ [] := (process_tokOK b t (by rw [hb]; simp)).1
    have hpos : 0 < t.length := List.length_pos.2 hne
    have htake : (process a ++ t :: rest).take (process a).length = process a :=
      List.take_left' rfl
    have h := getRow_row_at (process a ++ t :: rest) a.length (process a).length t
      (getElem?_mid _ _ _) (by rw [htake, rowText_process]) (by rw [htake, rowText_process]; omega)
    rw [h, htake, rowText_process]
    simp

theorem set_same {α : Type} (l : List α) (n : Nat) (x : α) (h : l[n]? = some x) :
    l.set n x = l := by
  induction l generalizing n with
  | nil => rfl
  | cons a as ih =>
    cases n with
    | zero =>
      simp only [List.getElem?_cons_zero, Option.some.injEq] at h
      simp [h]
    | succ k =>
      simp only [List.getElem?_cons_succ] at h
      simp [ih k h]

theorem rowAt_getElem (E : editorConfig) (at_ : Int) (r : Row) (h : rowAt E at_ = some r) :
    0 ≤ at_ ∧ E.row[at_.toNat]? = some r := by
  unfold rowAt at h
  by_cases h0 : 0 ≤ at_
  · rw [if_pos h0] at h
    exact ⟨h0, h⟩
  · rw [if_neg h0] at h
    cases h

theorem appendRow_loop_spec (at1 : Int) (tail : List Token) (E : editorConfig) (r : Row)
    (hr : rowAt E at1 = some r) :
    appendRow_loop at1 tail E = some { E with row := E.row.set at1.toNat (r ++ tail) } := by
  induction tail generalizing E r with
  | nil =>
    have := set_same E.row at1.toNat r (rowAt_getElem E at1 r hr).2
    simp [appendRow_loop, this]
  | cons t ts ih =>
    have h1 := rowAt_set_self E at1 r (r ++ [t]) hr
    rw [appendRow_loop, hr, Option.bind_eq_bind, Option.some_bind, ih _ _ h1]
    simp

/-- Where splitting and appending does rebuild the row. For every document
whose `numrows` is its number of rows, every string `s` and every
`k <= length of s`, if row `a` holds `process(s[0..k))` and row `b` holds
`process(s)`, then `appendRow(a, b, k)` completes and the text of row `a`
afterwards is `s`; when `k` lies on a token boundary of `process(s)`
(`k == 0`, `k == length of s`, or the character before or at position `k` is a
space or tab) the tokens of row `a` are `process(s)`. -/
theorem appendRow_reconstruct (E : editorConfig) (hn : E.numrows = E.row.length)
    (a b : Int) (s : List Char) (k : Nat) (hk : k ≤ s.length)
    (ha : rowAt E a = some (process (s.take k))) (hb : rowAt E b = some (process s)) :
    ∃ E1 tail, getRow E b k = some tail ∧ appendRow E a b k = some E1 ∧
      rowAt E1 a = some (process (s.take k) ++ tail) ∧
      rowText (process (s.take k) ++ tail) = s ∧
      ((k = 0 ∨ k = s.length ∨ (∃ c ∈ (s.take k).getLast?, c = '\t' ∨ c = ' ') ∨
          (∃ c ∈ (s.drop k).head?, c = '\t' ∨ c = ' ')) →
        process (s.take k) ++ tail = process s) := by
  obtain ⟨ha0, hae⟩ := rowAt_getElem E a _ ha
  obtain ⟨hb0, hbe⟩ := rowAt_getElem E b _ hb
  have halt : a.toNat < E.row.length := (List.getElem?_eq_some_iff.1 hae).1
  have hblt : b.toNat < E.row.length := (List.getElem?_eq_some_iff.1 hbe).1
  have hga : ¬ (a < 0 ∨ a > E.numrows) := by omega
  have hgb : ¬ (b < 0 ∨ b ≥ E.numrows) := by omega
  have hget : getRow E b k = getRow_row (process s) k := by
    simp [getRow, hgb, hb]
  have htail : ∃ tail, getRow_row (process s) k = some tail ∧ rowText tail = s.drop k := by
    rcases Nat.lt_or_ge k s.length with hlt | hge
    · have := getRow_row_text (process s) k (by rw [rowText_process]; exact hlt)
      rw [rowText_process] at this
      exact this
    · exact ⟨[], getRow_row_past _ _ (by rw [rowText_process]; exact hge),
        by rw [List.drop_of_length_le hge]; rfl⟩
  obtain ⟨tail, ht1, ht2⟩ := htail
  refine ⟨{ E with row := E.row.set a.toNat (process (s.take k) ++ tail) }, tail,
    by rw [hget, ht1], ?_, rowAt_set_self E a _ _ ha, ?_, ?_⟩
  · simp only [appendRow, hga, if_false, hget, ht1, Option.bind_eq_bind, Option.some_bind]
    exact appendRow_loop_spec a tail E _ ha
  · rw [rowText_append, rowText_process, ht2, List.take_append_drop]
  · intro hcond
    have hsplit : process s = process (s.take k) ++ process (s.drop k) := by
      conv_lhs => rw [← List.take_append_drop k s]
      apply process_append
      rcases hcond with h | h | h | h
      · left; subst h; rfl
      · right; left; subst h; simp
      · right; right; left; exact h
      · right; right; right; exact h
    have hb2 := getRow_row_boundary (s.take k) (s.drop k)
    rw [← hsplit, List.length_take, Nat.min_eq_left hk, ht1] at hb2
    rw [hsplit, Option.some.inj hb2]

/-- C11 (evaluation at the failing input): with `s = "abcd"` and `k = 2`,
row 0 holding `process("ab") = ["ab"]` and row 1 holding
`process("abcd") = ["abcd"]`, `getRow(1, 2)` returns `["cd"]` and
`appendRow(0, 1, 2)` leaves row 0 as `["ab","cd"]`: two adjacent Word tokens,
not in tokenized form and not `process("abcd")`. -/
theorem appendRow_split_word_eval :
    rowAt (docOf [process ['a', 'b'], process ['a', 'b', 'c', 'd']]) 0
      = some (process (['a', 'b', 'c', 'd'].take 2)) ∧
    rowAt (docOf [process ['a', 'b'], process ['a', 'b', 'c', 'd']]) 1
      = some (process ['a', 'b', 'c', 'd']) ∧
    getRow (docOf [process ['a', 'b'], process ['a', 'b', 'c', 'd']]) 1 2
      = some [['c', 'd']] ∧
    (appendRow (docOf [process ['a', 'b'], process ['a', 'b', 'c', 'd']]) 0 1 2).bind
        (fun E => rowAt E 0)
      = some [['a', 'b'], ['c', 'd']] ∧
    process ['a', 'b', 'c', 'd'] = [['a', 'b', 'c', 'd']] ∧
    ¬ tokenized [['a', 'b'], ['c', 'd']] :=
  ⟨by decide, by decide, by decide, by decide, by decide, by decide⟩

/-! ### Renderer -/

/-- The fuel `TAB_SIZE` of `pad_loop` is enough: the padding loop stops with
the length of `render` a multiple of `TAB_SIZE`, as the `while` does. -/
theorem pad_loop_aligned (render : List Char) :
    (pad_loop TAB_SIZE render).length % TAB_SIZE = 0 := by
  simp only [TAB_SIZE, pad_loop]
  split_ifs <;> simp only [List.length_append, List.length_singleton] at * <;> omega

end KbEditor
